import Mathlib

/-!
# UDP packet capture tool: hex-dump formatter and per-sender statistics

A shallow embedding of `main.go`:

* `formatHexDump` (main.go 183-227) with its three loops, over Go strings
  modelled as Lean `String`s (every emitted character is ASCII, so characters
  and bytes coincide);
* the packet case of the event loop (main.go 68-84) as a step function on an
  explicit state (global counter and sender map), with Go's `int` as an
  integer that wraps at 32 or 64 bits, by build target;
* the per-sender part of `printSenderSummary` (main.go 164-175).
-/

namespace UdpTest

/-! ## Data model -/

/-- A Go `byte` (`uint8`). -/
abbrev Byte := Fin 256

/-- The constant `bytesPerLine` of `formatHexDump` (main.go 189). -/
def bytesPerLine : Nat := 16

/-! ## `fmt.Sprintf` verbs used by the formatter -/

/-- The verb `%0wx` of Go's `fmt` applied to a non-negative integer: the
lowercase hexadecimal digits of `n` (at least one digit), padded on the left
with `'0'` up to width `w`; a longer number is not truncated. -/
def sprintfHex (w n : Nat) : String :=
  String.mk (List.leftpad w '0' (Nat.toDigits 16 n))

/-! ## `formatHexDump` (main.go 183-227) -/

/-- The hex-byte loop `for j := i; j < i+bytesPerLine; j++` (main.go 201-212),
started at loop counter `j` with the accumulated string `result`. -/
def hexLoop (data : List Byte) (i j : Nat) (result : String) : String :=
  if j < i + bytesPerLine then
    let result :=
      if h : j < data.length then
        result ++ (sprintfHex 2 (data.get ⟨j, h⟩).val ++ " ")
      else
        result ++ "   "
    let result := if j = i + 7 then result ++ " " else result
    hexLoop data i (j + 1) result
  else
    result
termination_by i + bytesPerLine - j

/-- The character appended for one byte in the ASCII column (main.go 217-221):
the byte itself as a character when it is in `[32, 126]`, a dot otherwise. -/
def asciiChar (b : Byte) : String :=
  if b.val ≥ 32 ∧ b.val ≤ 126 then String.singleton (Char.ofNat b.val) else "."

/-- The ASCII loop `for j := i; j < lineEnd; j++` (main.go 216-222), started
at loop counter `j` with the accumulated string `result`. -/
def asciiLoop (data : List Byte) (lineEnd : Nat) (hEnd : lineEnd ≤ data.length)
    (j : Nat) (result : String) : String :=
  if h : j < lineEnd then
    asciiLoop data lineEnd hEnd (j + 1)
      (result ++ asciiChar (data.get ⟨j, Nat.lt_of_lt_of_le h hEnd⟩))
  else
    result
termination_by lineEnd - j

/-- The value of `lineEnd` after main.go 196-199. -/
def lineEndOf (data : List Byte) (i : Nat) : Nat :=
  if i + bytesPerLine > data.length then data.length else i + bytesPerLine

/-- One iteration of the outer loop body (main.go 192-223) at offset `i`. -/
def dumpBody (data : List Byte) (i : Nat) (result : String) : String :=
  let result := result ++ (sprintfHex 4 i ++ ": ")
  let result := hexLoop data i i result
  let result := result ++ " |"
  let result :=
    asciiLoop data (lineEndOf data i) (by unfold lineEndOf; split <;> omega) i result
  result ++ "|\n"

/-- The outer loop `for i := 0; i < len(data); i += bytesPerLine`
(main.go 191-224), started at loop counter `i`. -/
def dumpLoop (data : List Byte) (i : Nat) (result : String) : String :=
  if i < data.length then
    dumpLoop data (i + bytesPerLine) (dumpBody data i result)
  else
    result
termination_by data.length - i
decreasing_by
  simp only [bytesPerLine]
  omega

/-- The function `formatHexDump` (main.go 183-227). -/
def formatHexDump (data : List Byte) : String :=
  if data.length = 0 then
    ""
  else
    dumpLoop data 0 ""

/-! ## Go's `int` -/

/-- The size of Go's `int`, fixed by the build target: 32 bits (386, arm, ...)
or 64 bits (amd64, arm64, ...). -/
inductive IntSize where
  | w32
  | w64
deriving DecidableEq, Repr

/-- The number of bits of an `int`. -/
def IntSize.bits : IntSize → Nat
  | .w32 => 32
  | .w64 => 64

/-- The least value of an `int`. -/
def intMin (sz : IntSize) : Int := -(2 ^ (sz.bits - 1))

/-- The greatest value of an `int`. -/
def intMax (sz : IntSize) : Int := 2 ^ (sz.bits - 1) - 1

/-- The value an `int` holds after an operation whose exact result is `x`:
two's-complement wrap-around into `[intMin, intMax]`. -/
def wrapInt (sz : IntSize) (x : Int) : Int :=
  (x + 2 ^ (sz.bits - 1)) % 2 ^ sz.bits - 2 ^ (sz.bits - 1)

/-! ## Event loop: the packet case (main.go 68-84) -/

/-- The part of `*net.UDPAddr` the loop reads: `ip` is the value of
`addr.IP.String()`, `port` the field `addr.Port`. -/
structure UDPAddr where
  ip : String
  port : Int
deriving DecidableEq, Repr

/-- The struct `packetData` (main.go 111-115). -/
structure packetData where
  data : List Byte
  length : Int
  addr : UDPAddr
deriving DecidableEq, Repr

/-- The struct `senderInfo` (main.go 117-123). A `time.Time` is a clock
reading, modelled as a natural number. The fields `packetCount` and
`totalBytes` are Go `int`s: they hold integers, and every operation on them
wraps with `wrapInt`. -/
structure senderInfo where
  ip : String
  firstSeen : Nat
  lastSeen : Nat
  packetCount : Int
  totalBytes : Int
deriving DecidableEq, Repr

/-- The map `senderStats` of type `map[string]*senderInfo` (main.go 58), as an
association list. Each pointer is allocated at main.go 75 and stored under one
key only, so the pointees are held by value. -/
abbrev SenderStats := List (String × senderInfo)

/-- The map read `senderStats[key]` with its `exists` flag. -/
def SenderStats.find (m : SenderStats) (key : String) : Option senderInfo :=
  match m with
  | [] => none
  | (k, v) :: rest => if k = key then some v else SenderStats.find rest key

/-- The map write `senderStats[key] = v`. -/
def SenderStats.set (m : SenderStats) (key : String) (v : senderInfo) : SenderStats :=
  match m with
  | [] => [(key, v)]
  | (k, w) :: rest =>
    if k = key then (k, v) :: rest else (k, w) :: SenderStats.set rest key v

/-- A field update through the pointer `senderStats[key]`: the struct stored
under `key` is replaced by `f` of it; other entries are not touched. -/
def SenderStats.modify (m : SenderStats) (key : String) (f : senderInfo → senderInfo) :
    SenderStats :=
  match m with
  | [] => []
  | (k, w) :: rest =>
    if k = key then (k, f w) :: rest else (k, w) :: SenderStats.modify rest key f

/-- The sender-statistics update of the packet case (main.go 71-84) for a
packet `pkt` on a build with `int` size `sz`; `tFirst` and `tLast` are the
values returned by the calls of `time.Now()` at main.go 77 and 84. The
increments at main.go 82 and 83 wrap. -/
def updateSenderStats (sz : IntSize) (senderStats : SenderStats) (pkt : packetData)
    (tFirst tLast : Nat) : SenderStats :=
  let senderKey := pkt.addr.ip
  let senderStats :=
    if (senderStats.find senderKey).isNone then
      senderStats.set senderKey
        { ip := senderKey, firstSeen := tFirst, lastSeen := 0, packetCount := 0, totalBytes := 0 }
    else
      senderStats
  let senderStats :=
    senderStats.modify senderKey
      (fun s => { s with packetCount := wrapInt sz (s.packetCount + 1) })
  let senderStats :=
    senderStats.modify senderKey
      (fun s => { s with totalBytes := wrapInt sz (s.totalBytes + pkt.length) })
  senderStats.modify senderKey (fun s => { s with lastSeen := tLast })

/-- The packet `receivePackets` sends on the channel for a datagram with the
given payload and source address (main.go 136-143): `length` is the number of
bytes read. -/
def receivedPacket (payload : List Byte) (addr : UDPAddr) : packetData :=
  { data := payload, length := payload.length, addr := addr }

/-- The variables of `main` that the event loop mutates (main.go 57-58);
`packetCount` is a Go `int`. -/
structure LoopState where
  packetCount : Int
  senderStats : SenderStats
deriving DecidableEq, Repr

/-- The state before the first iteration of the loop (main.go 57-58). -/
def LoopState.init : LoopState := { packetCount := 0, senderStats := [] }

/-- One packet taken from `packetChan` together with the two clock readings
made while it is processed. -/
structure PacketEvent where
  pkt : packetData
  tFirst : Nat
  tLast : Nat
deriving DecidableEq, Repr

/-- The packet case of the `select` (main.go 68-84): the state after one
packet; the increment `packetCount++` at main.go 69 wraps. -/
def packetCase (sz : IntSize) (st : LoopState) (ev : PacketEvent) : LoopState :=
  { packetCount := wrapInt sz (st.packetCount + 1)
    senderStats := updateSenderStats sz st.senderStats ev.pkt ev.tFirst ev.tLast }

/-- The loop state after the packets `evs` have been processed in order. -/
def runLoop (sz : IntSize) (st : LoopState) (evs : List PacketEvent) : LoopState :=
  evs.foldl (packetCase sz) st

/-! ## `printSenderSummary` (main.go 155-177), the per-sender average -/

/-- Go integer division on `int`: `none` stands for the run-time panic on a
zero divisor, otherwise the quotient truncated toward zero, wrapped (the one
overflowing case is `intMin / -1`, which gives `intMin`). -/
def goDiv (sz : IntSize) (a b : Int) : Option Int :=
  if b = 0 then none else some (wrapInt sz (Int.tdiv a b))

/-- The average line of one sender (main.go 172-174): `none` when the guard
`info.packetCount > 0` fails and nothing is printed, otherwise the outcome of
the division `info.totalBytes/info.packetCount`. -/
def avgPacketSize (sz : IntSize) (info : senderInfo) : Option (Option Int) :=
  if info.packetCount > 0 then some (goDiv sz info.totalBytes info.packetCount) else none

/-- The entry for `pkt` after the statistics update: a fresh entry that has
counted this packet when the sender was unseen, the old entry with this packet
added otherwise. -/
def recorded (sz : IntSize) (old : Option senderInfo) (pkt : packetData)
    (tFirst tLast : Nat) : senderInfo :=
  match old with
  | none =>
    { ip := pkt.addr.ip, firstSeen := tFirst, lastSeen := tLast,
      packetCount := wrapInt sz (0 + 1), totalBytes := wrapInt sz (0 + pkt.length) }
  | some s =>
    { s with packetCount := wrapInt sz (s.packetCount + 1),
             totalBytes := wrapInt sz (s.totalBytes + pkt.length), lastSeen := tLast }

/-- The sum of the `packetCount` fields of all entries of the map. -/
def sumPacketCount (m : SenderStats) : Int := (m.map (fun e => e.2.packetCount)).sum

/-- The sum of the `totalBytes` fields of all entries of the map. -/
def sumTotalBytes (m : SenderStats) : Int := (m.map (fun e => e.2.totalBytes)).sum

/-- Ten packets from one sender, with payloads of 0, 1, ..., 9 bytes. -/
def tenPackets : List PacketEvent :=
  (List.range 10).map (fun i =>
    { pkt := receivedPacket (List.replicate i 0x41) { ip := "127.0.0.1", port := 40000 },
      tFirst := 2 * i, tLast := 2 * i + 1 })

/-- Three packets from two senders, one of them empty. -/
def mixedPackets : List PacketEvent :=
  [ { pkt := receivedPacket [0x68, 0x69] { ip := "10.0.0.1", port := 5000 },
      tFirst := 1, tLast := 2 },
    { pkt := receivedPacket [] { ip := "10.0.0.2", port := 5001 }, tFirst := 3, tLast := 4 },
    { pkt := receivedPacket [0x21] { ip := "10.0.0.1", port := 5002 },
      tFirst := 5, tLast := 6 } ]

/-- One datagram of 65507 bytes, the largest UDP payload over IPv4. -/
def floodEvent : PacketEvent :=
  { pkt := receivedPacket (List.replicate 65507 0x00) { ip := "192.0.2.1", port := 9 },
    tFirst := 0, tLast := 0 }

/-- A run of 32785 such datagrams from one sender, 2147646995 bytes in all. -/
def floodPackets : List PacketEvent := List.replicate 32785 floodEvent

/-- A run of `2^31` such datagrams from one sender. -/
def longFlood : List PacketEvent := List.replicate 2147483648 floodEvent

/-- The entry of the second sender after `mixedPackets`. -/
def secondSender : senderInfo :=
  { ip := "10.0.0.2", firstSeen := 3, lastSeen := 4, packetCount := 1, totalBytes := 0 }

/-! ## Reading a dump back: the vocabulary of the specification -/

/-- The lowercase hexadecimal digit of a value below 16. -/
def hexDigit (d : Nat) : Char := Nat.digitChar d

/-- The value of a lowercase hexadecimal digit character. -/
def hexVal (c : Char) : Option Nat :=
  if c.toNat ≥ 48 ∧ c.toNat ≤ 57 then some (c.toNat - 48)
  else if c.toNat ≥ 97 ∧ c.toNat ≤ 102 then some (c.toNat - 87)
  else none

/-- The number of dump lines for `n` bytes, `ceil(n/16)`. -/
def lineCount (n : Nat) : Nat := (n + 15) / 16

/-- The chunk of line `k`: the bytes `data[16k .. min(16k+16, len))`. -/
def chunk (data : List Byte) (k : Nat) : List Byte := (data.drop (16 * k)).take 16

/-- Splitting a text into its lines, a line break ending each line (text after
the last line break, if any, is a final line). The accumulator holds the
current line reversed. -/
def splitLinesAux : List Char → List Char → List (List Char)
  | [], acc => if acc = [] then [] else [acc.reverse]
  | c :: cs, acc =>
    if c = '\n' then acc.reverse :: splitLinesAux cs [] else splitLinesAux cs (c :: acc)

/-- The lines of a text, without their line breaks. -/
def splitLines (s : List Char) : List (List Char) := splitLinesAux s []

/-- The byte printed in one 3-character hex slot: two hex digits and a space
give a byte, anything else (a blank padding slot) gives nothing. -/
def readSlot (a b c : Char) : Option Byte :=
  match hexVal a, hexVal b with
  | some x, some y => if c = ' ' then some (Fin.ofNat (16 * x + y)) else none
  | _, _ => none

/-- Reading `n` consecutive 3-character hex slots from the front of a text. -/
def readSlots : Nat → List Char → List Byte
  | n + 1, a :: b :: c :: rest => (readSlot a b c).toList ++ readSlots n rest
  | _, _ => []

/-- The bytes printed on one dump line: skip the 6 characters of the offset
prefix, read 8 slots, skip the extra space, read 8 more slots. -/
def parseLine (line : List Char) : List Byte :=
  readSlots 8 (line.drop 6) ++ readSlots 8 (line.drop 31)

/-- Reading a whole dump back: the bytes of all lines, in order. -/
def parseHexDump (out : List Char) : List Byte :=
  (splitLines out).flatMap parseLine

/-- The character the specification puts in the ASCII column for a byte. -/
def asciiOf (b : Byte) : Char :=
  if 32 ≤ b.val ∧ b.val ≤ 126 then Char.ofNat b.val else '.'

/-- The text of a line between the opening bar (the first bar of the line) and
the closing bar (the last character of the line). -/
def asciiColumn (line : List Char) : List Char :=
  ((line.dropWhile (fun c => c != '|')).drop 1).dropLast

/-- The 3 characters of hex slot `j` as the specification describes them: two
lowercase hex digits and a space for a byte that exists, three spaces for a
slot past the end of the data. -/
def slotText (data : List Byte) (j : Nat) : List Char :=
  match data[j]? with
  | some b => [hexDigit (b.val / 16), hexDigit (b.val % 16), ' ']
  | none => [' ', ' ', ' ']

/-- The offset as exactly 4 lowercase zero-padded hex digits. -/
def offsetText (n : Nat) : List Char :=
  [hexDigit (n / 4096 % 16), hexDigit (n / 256 % 16), hexDigit (n / 16 % 16), hexDigit (n % 16)]

/-- Line `k` after its offset digits, as the specification lays it out: the
colon and space, 8 slots, the extra space, 8 slots, the space and opening bar,
the ASCII characters of the bytes present, the closing bar. -/
def lineTail (data : List Byte) (k : Nat) : List Char :=
  [':', ' ']
    ++ ((List.range 8).map (fun s => slotText data (16 * k + s))).flatten
    ++ [' ']
    ++ ((List.range 8).map (fun s => slotText data (16 * k + 8 + s))).flatten
    ++ [' ', '|'] ++ (chunk data k).map asciiOf ++ ['|']

/-- Line `k` as the specification lays it out, without its line break. -/
def layoutLine (data : List Byte) (k : Nat) : List Char :=
  offsetText (16 * k) ++ lineTail data k

/-- Line `k` as the loop emits it, without its line break: the offset printed
by `%04x` and the line tail. -/
def dumpLine (data : List Byte) (k : Nat) : List Char :=
  (sprintfHex 4 (16 * k)).data ++ lineTail data k

/-- The 11 bytes of "Hello World" (test.go 30). -/
def helloWorld : List Byte :=
  [0x48, 0x65, 0x6c, 0x6c, 0x6f, 0x20, 0x57, 0x6f, 0x72, 0x6c, 0x64]

/-- The 21 bytes of "Hello World\nTest data", the example of the doc comment
of `formatHexDump` (main.go 180-182). -/
def docExample : List Byte :=
  [0x48, 0x65, 0x6c, 0x6c, 0x6f, 0x20, 0x57, 0x6f, 0x72, 0x6c, 0x64, 0x0a, 0x54, 0x65, 0x73,
    0x74, 0x20, 0x64, 0x61, 0x74, 0x61]

/-- The two lines of the doc comment of `formatHexDump` (main.go 181-182),
each followed by a line break. -/
def docExampleText : String :=
  "0000: 48 65 6c 6c 6f 20 57 6f 72 6c 64 0a 54 65 73 74  |Hello World.Test|\n" ++
  "0010: 20 64 61 74 61                                   | data|\n"

/-! ## Closed forms of the loops of `formatHexDump` -/

/-- The characters one iteration of the hex loop appends (main.go 202-211). -/
def hexStep (data : List Byte) (i j : Nat) : List Char :=
  (if h : j < data.length then (sprintfHex 2 (data.get ⟨j, h⟩).val).data ++ [' ']
    else [' ', ' ', ' '])
    ++ (if j = i + 7 then [' '] else [])

/-- The characters one iteration of the outer loop appends (main.go 192-223). -/
def lineChars (data : List Byte) (i : Nat) : List Char :=
  (sprintfHex 4 i).data ++ [':', ' ']
    ++ ((List.range' i 16).map (hexStep data i)).flatten
    ++ [' ', '|'] ++ ((data.take (lineEndOf data i)).drop i).map asciiOf ++ ['|', '\n']

set_option maxRecDepth 8000

/-! ## Hexadecimal formatting -/

theorem toDigitsCore_succ (fuel n : Nat) (ds : List Char) :
    Nat.toDigitsCore 16 (fuel + 1) n ds =
      if n / 16 = 0 then Nat.digitChar (n % 16) :: ds
      else Nat.toDigitsCore 16 fuel (n / 16) (Nat.digitChar (n % 16) :: ds) := rfl

theorem toDigitsCore_of_pos (fuel n : Nat) (ds : List Char) (h : 0 < fuel) :
    Nat.toDigitsCore 16 fuel n ds =
      if n / 16 = 0 then Nat.digitChar (n % 16) :: ds
      else Nat.toDigitsCore 16 (fuel - 1) (n / 16) (Nat.digitChar (n % 16) :: ds) := by
  obtain ⟨f, rfl⟩ : ∃ f, fuel = f + 1 := ⟨fuel - 1, by omega⟩
  exact toDigitsCore_succ f n ds

theorem toDigits_one (n : Nat) (h : n < 16) : Nat.toDigits 16 n = [hexDigit n] := by
  unfold Nat.toDigits hexDigit
  rw [toDigitsCore_succ, if_pos (by omega)]
  have e : n % 16 = n := by omega
  rw [e]

theorem toDigits_two (n : Nat) (h1 : 16 ≤ n) (h : n < 256) :
    Nat.toDigits 16 n = [hexDigit (n / 16), hexDigit (n % 16)] := by
  unfold Nat.toDigits hexDigit
  rw [toDigitsCore_succ, if_neg (by omega), toDigitsCore_of_pos _ _ _ (by omega),
    if_pos (by omega)]
  have e : n / 16 % 16 = n / 16 := by omega
  rw [e]

theorem toDigits_three (n : Nat) (h1 : 256 ≤ n) (h : n < 4096) :
    Nat.toDigits 16 n = [hexDigit (n / 256), hexDigit (n / 16 % 16), hexDigit (n % 16)] := by
  unfold Nat.toDigits hexDigit
  rw [toDigitsCore_succ, if_neg (by omega), toDigitsCore_of_pos _ _ _ (by omega),
    if_neg (by omega), toDigitsCore_of_pos _ _ _ (by omega), if_pos (by omega)]
  have e : n / 16 / 16 % 16 = n / 256 := by omega
  rw [e]

theorem toDigits_four (n : Nat) (h1 : 4096 ≤ n) (h : n < 65536) :
    Nat.toDigits 16 n =
      [hexDigit (n / 4096), hexDigit (n / 256 % 16), hexDigit (n / 16 % 16), hexDigit (n % 16)] := by
  unfold Nat.toDigits hexDigit
  rw [toDigitsCore_succ, if_neg (by omega), toDigitsCore_of_pos _ _ _ (by omega),
    if_neg (by omega), toDigitsCore_of_pos _ _ _ (by omega), if_neg (by omega),
    toDigitsCore_of_pos _ _ _ (by omega), if_pos (by omega)]
  have e : n / 16 / 16 / 16 % 16 = n / 4096 := by omega
  have e2 : n / 16 / 16 % 16 = n / 256 % 16 := by omega
  rw [e, e2]

theorem sprintfHex_two (b : Nat) (h : b < 256) :
    (sprintfHex 2 b).data = [hexDigit (b / 16), hexDigit (b % 16)] := by
  unfold sprintfHex List.leftpad
  by_cases h1 : b < 16
  · rw [toDigits_one b h1]
    have e1 : b / 16 = 0 := by omega
    have e2 : b % 16 = b := by omega
    rw [e1, e2]
    rfl
  · rw [toDigits_two b (by omega) h]
    rfl

theorem sprintfHex_four (n : Nat) (h : n < 65536) :
    (sprintfHex 4 n).data =
      [hexDigit (n / 4096), hexDigit (n / 256 % 16), hexDigit (n / 16 % 16), hexDigit (n % 16)] := by
  unfold sprintfHex List.leftpad
  by_cases h1 : n < 16
  · rw [toDigits_one n h1]
    have e1 : n / 4096 = 0 := by omega
    have e2 : n / 256 % 16 = 0 := by omega
    have e3 : n / 16 % 16 = 0 := by omega
    have e4 : n % 16 = n := by omega
    rw [e1, e2, e3, e4]
    rfl
  · by_cases h2 : n < 256
    · rw [toDigits_two n (by omega) h2]
      have e1 : n / 4096 = 0 := by omega
      have e2 : n / 256 % 16 = 0 := by omega
      have e3 : n / 16 % 16 = n / 16 := by omega
      rw [e1, e2, e3]
      rfl
    · by_cases h3 : n < 4096
      · rw [toDigits_three n (by omega) h3]
        have e1 : n / 4096 = 0 := by omega
        have e2 : n / 256 % 16 = n / 256 := by omega
        rw [e1, e2]
        rfl
      · rw [toDigits_four n (by omega) h]
        rfl

/-! ## The loops of `formatHexDump` in closed form -/

theorem hexLoop_data (data : List Byte) (i : Nat) :
    ∀ (n j : Nat) (result : String), n = i + bytesPerLine - j →
      (hexLoop data i j result).data =
        result.data ++ ((List.range' j n).map (hexStep data i)).flatten := by
  intro n
  induction n with
  | zero =>
    intro j result hn
    unfold hexLoop
    rw [if_neg (by omega)]
    simp
  | succ n ih =>
    intro j result hn
    unfold hexLoop
    rw [if_pos (by omega)]
    simp only []
    rw [ih (j + 1) _ (by omega)]
    simp only [List.range'_succ, List.map_cons, List.flatten_cons, hexStep]
    split_ifs <;> simp [String.data_append]

theorem asciiChar_data (b : Byte) : (asciiChar b).data = [asciiOf b] := by
  unfold asciiChar asciiOf
  by_cases h : 32 ≤ b.val ∧ b.val ≤ 126
  · rw [if_pos h, if_pos h]
    rfl
  · rw [if_neg h, if_neg h]

theorem asciiLoop_data (data : List Byte) (lineEnd : Nat) (hEnd : lineEnd ≤ data.length) :
    ∀ (n j : Nat) (result : String), n = lineEnd - j →
      (asciiLoop data lineEnd hEnd j result).data =
        result.data ++ ((data.take lineEnd).drop j).map asciiOf := by
  intro n
  induction n with
  | zero =>
    intro j result hn
    unfold asciiLoop
    rw [dif_neg (by omega)]
    have h : (data.take lineEnd).drop j = [] := by
      apply List.drop_eq_nil_of_le
      rw [List.length_take]
      omega
    simp [h]
  | succ n ih =>
    intro j result hn
    unfold asciiLoop
    have hj : j < lineEnd := by omega
    rw [dif_pos hj, ih (j + 1) _ (by omega)]
    have hlen : j < (data.take lineEnd).length := by
      rw [List.length_take]
      omega
    have hd : (data.take lineEnd).drop j
        = data.get ⟨j, Nat.lt_of_lt_of_le hj hEnd⟩ :: (data.take lineEnd).drop (j + 1) := by
      rw [List.drop_eq_getElem_cons hlen]
      simp [List.getElem_take]
    rw [hd]
    simp [String.data_append, asciiChar_data]

theorem dumpBody_data (data : List Byte) (i : Nat) (result : String) :
    (dumpBody data i result).data = result.data ++ lineChars data i := by
  unfold dumpBody lineChars
  simp only [String.data_append]
  rw [asciiLoop_data data _ _ _ i _ rfl]
  simp only [String.data_append]
  rw [hexLoop_data data i bytesPerLine i _ (by omega)]
  simp [String.data_append, bytesPerLine]

theorem dumpLoop_data (data : List Byte) :
    ∀ (m k : Nat) (result : String), m = lineCount data.length - k →
      (dumpLoop data (16 * k) result).data =
        result.data ++ ((List.range' k m).map (fun k => lineChars data (16 * k))).flatten := by
  intro m
  induction m with
  | zero =>
    intro k result hm
    unfold dumpLoop
    unfold lineCount at hm
    rw [if_neg (by omega)]
    simp
  | succ m ih =>
    intro k result hm
    unfold dumpLoop
    unfold lineCount at hm
    rw [if_pos (by omega)]
    have e : 16 * k + bytesPerLine = 16 * (k + 1) := by
      unfold bytesPerLine
      omega
    rw [e, ih (k + 1) _ (by unfold lineCount; omega), dumpBody_data]
    simp [List.range'_succ]

/-- The output of `formatHexDump` is the concatenation of `ceil(n/16)` line
texts, one per offset `0, 16, 32, ...`. -/
theorem formatHexDump_data (data : List Byte) :
    (formatHexDump data).data =
      ((List.range (lineCount data.length)).map (fun k => lineChars data (16 * k))).flatten := by
  unfold formatHexDump
  by_cases h : data.length = 0
  · rw [if_pos h, h]
    rfl
  · rw [if_neg h]
    have := dumpLoop_data data (lineCount data.length) 0 "" (by omega)
    rw [Nat.mul_zero] at this
    rw [this, List.range_eq_range']
    rfl


/-! ## The layout of one line -/

theorem hexStep_eq (data : List Byte) (i j : Nat) :
    hexStep data i j = slotText data j ++ (if j = i + 7 then [' '] else []) := by
  unfold hexStep slotText
  by_cases h : j < data.length
  · rw [dif_pos h, List.getElem?_eq_getElem h]
    simp only []
    rw [sprintfHex_two _ (data.get ⟨j, h⟩).isLt]
    rfl
  · rw [dif_neg h, List.getElem?_eq_none (by omega)]

theorem hexArea_eq (data : List Byte) (k : Nat) :
    ((List.range' (16 * k) 16).map (hexStep data (16 * k))).flatten =
      ((List.range 8).map (fun s => slotText data (16 * k + s))).flatten ++ [' ']
        ++ ((List.range 8).map (fun s => slotText data (16 * k + 8 + s))).flatten := by
  have e : List.range' (16 * k) 16 =
      [16 * k + 0, 16 * k + 1, 16 * k + 2, 16 * k + 3, 16 * k + 4, 16 * k + 5, 16 * k + 6,
        16 * k + 7, 16 * k + 8 + 0, 16 * k + 8 + 1, 16 * k + 8 + 2, 16 * k + 8 + 3,
        16 * k + 8 + 4, 16 * k + 8 + 5, 16 * k + 8 + 6, 16 * k + 8 + 7] := rfl
  have r : List.range 8 = [0, 1, 2, 3, 4, 5, 6, 7] := rfl
  rw [e, r]
  simp [hexStep_eq]

theorem asciiPart_eq (data : List Byte) (k : Nat) :
    (data.take (lineEndOf data (16 * k))).drop (16 * k) = chunk data k := by
  unfold lineEndOf chunk bytesPerLine
  rw [List.drop_take]
  split
  · have h1 : (data.drop (16 * k)).length ≤ data.length - 16 * k := by
      rw [List.length_drop]
    have h2 : (data.drop (16 * k)).length ≤ 16 := by
      rw [List.length_drop]
      omega
    rw [List.take_of_length_le h1, List.take_of_length_le h2]
  · congr 1
    omega

/-- The text the loop emits for line `k` is the offset, the line tail the
specification describes, and a line break. -/
theorem lineChars_eq (data : List Byte) (k : Nat) :
    lineChars data (16 * k) = (sprintfHex 4 (16 * k)).data ++ lineTail data k ++ ['\n'] := by
  unfold lineChars lineTail
  rw [hexArea_eq, asciiPart_eq]
  simp

theorem sprintfHex_offset (k : Nat) (h : k < 4096) :
    (sprintfHex 4 (16 * k)).data = offsetText (16 * k) := by
  rw [sprintfHex_four _ (by omega)]
  unfold offsetText
  have e : 16 * k / 4096 % 16 = 16 * k / 4096 := by omega
  rw [e]


/-! ## Character classes of a line -/

theorem toDigitsCore_mem (P : Char → Prop) (hP : ∀ d, d < 16 → P (Nat.digitChar d)) :
    ∀ (fuel n : Nat) (ds : List Char), (∀ c ∈ ds, P c) →
      ∀ c ∈ Nat.toDigitsCore 16 fuel n ds, P c := by
  intro fuel
  induction fuel with
  | zero =>
    intro n ds hds c hc
    exact hds c hc
  | succ fuel ih =>
    intro n ds hds c hc
    rw [toDigitsCore_succ] at hc
    have hcons : ∀ c ∈ Nat.digitChar (n % 16) :: ds, P c := by
      intro c hc
      rcases List.mem_cons.mp hc with h | h
      · rw [h]
        exact hP _ (Nat.mod_lt _ (by decide))
      · exact hds c h
    split at hc
    · exact hcons c hc
    · exact ih _ _ hcons c hc

theorem sprintfHex_mem (P : Char → Prop) (hP : ∀ d, d < 16 → P (Nat.digitChar d)) (w n : Nat) :
    ∀ c ∈ (sprintfHex w n).data, P c := by
  intro c hc
  unfold sprintfHex List.leftpad at hc
  rcases List.mem_append.mp hc with h | h
  · rw [List.eq_of_mem_replicate h]
    exact hP 0 (by decide)
  · exact toDigitsCore_mem P hP _ _ [] (by simp) c h

theorem digitChar_ne_newline : ∀ d, d < 16 → Nat.digitChar d ≠ '\n' := by
  decide

theorem digitChar_ne_bar : ∀ d, d < 16 → Nat.digitChar d ≠ '|' := by
  decide

theorem toNat_ofNat_small (n : Nat) (h : n < 55296) : (Char.ofNat n).toNat = n := by
  unfold Char.ofNat
  rw [dif_pos (Or.inl h)]
  rfl

theorem asciiOf_ne_newline (b : Byte) : asciiOf b ≠ '\n' := by
  unfold asciiOf
  split
  · intro e
    have h := congrArg Char.toNat e
    rw [toNat_ofNat_small _ (by omega)] at h
    have h10 : ('\n' : Char).toNat = 10 := rfl
    omega
  · decide

theorem slotText_mem (P : Char → Prop) (hP : ∀ d, d < 16 → P (Nat.digitChar d)) (hs : P ' ')
    (data : List Byte) (j : Nat) : ∀ c ∈ slotText data j, P c := by
  intro c hc
  unfold slotText hexDigit at hc
  split at hc
  · simp only [List.mem_cons, List.mem_singleton, List.not_mem_nil, or_false] at hc
    rcases hc with h | h | h <;> rw [h]
    · exact hP _ (by omega)
    · exact hP _ (Nat.mod_lt _ (by decide))
    · exact hs
  · simp only [List.mem_cons, List.mem_singleton, List.not_mem_nil, or_false] at hc
    rcases hc with h | h | h <;> rw [h] <;> exact hs

theorem slots_mem (P : Char → Prop) (hP : ∀ d, d < 16 → P (Nat.digitChar d)) (hs : P ' ')
    (data : List Byte) (f : Nat → Nat) (ss : List Nat) :
    ∀ c ∈ (ss.map (fun s => slotText data (f s))).flatten, P c := by
  intro c hc
  rw [List.mem_flatten] at hc
  obtain ⟨l, hl, hcl⟩ := hc
  rw [List.mem_map] at hl
  obtain ⟨s, _, rfl⟩ := hl
  exact slotText_mem P hP hs data _ c hcl

/-- The part of a line before the opening bar. -/
theorem dumpLine_split (data : List Byte) (k : Nat) :
    dumpLine data k =
      ((sprintfHex 4 (16 * k)).data ++ [':', ' ']
        ++ ((List.range 8).map (fun s => slotText data (16 * k + s))).flatten ++ [' ']
        ++ ((List.range 8).map (fun s => slotText data (16 * k + 8 + s))).flatten ++ [' '])
      ++ '|' :: ((chunk data k).map asciiOf ++ ['|']) := by
  unfold dumpLine lineTail
  simp

theorem dumpLine_head_mem (P : Char → Prop) (hP : ∀ d, d < 16 → P (Nat.digitChar d)) (hs : P ' ')
    (hc : P ':') (data : List Byte) (k : Nat) :
    ∀ c ∈ (sprintfHex 4 (16 * k)).data ++ [':', ' ']
        ++ ((List.range 8).map (fun s => slotText data (16 * k + s))).flatten ++ [' ']
        ++ ((List.range 8).map (fun s => slotText data (16 * k + 8 + s))).flatten ++ [' '], P c := by
  intro c h
  simp only [List.mem_append, List.mem_cons, List.mem_singleton, List.not_mem_nil, or_false] at h
  rcases h with ((((h | h | h) | h) | h) | h) | h
  · exact sprintfHex_mem P hP _ _ c h
  · rw [h]; exact hc
  · rw [h]; exact hs
  · exact slots_mem P hP hs data _ _ c h
  · rw [h]; exact hs
  · exact slots_mem P hP hs data _ _ c h
  · rw [h]; exact hs

theorem dumpLine_no_newline (data : List Byte) (k : Nat) : '\n' ∉ dumpLine data k := by
  intro h
  rw [dumpLine_split, List.mem_append] at h
  rcases h with h | h
  · exact dumpLine_head_mem (fun c => c ≠ '\n') digitChar_ne_newline (by decide) (by decide)
      data k _ h rfl
  · simp only [List.mem_cons, List.mem_append, List.mem_map, List.mem_singleton,
      List.not_mem_nil, or_false] at h
    rcases h with h | ⟨b, _, hb⟩ | h
    · exact absurd h (by decide)
    · exact asciiOf_ne_newline b hb
    · exact absurd h (by decide)

/-! ## Lines of the output -/

theorem splitLinesAux_line (body rest : List Char) (h : '\n' ∉ body) :
    ∀ acc, splitLinesAux (body ++ '\n' :: rest) acc
      = (acc.reverse ++ body) :: splitLinesAux rest [] := by
  induction body with
  | nil =>
    intro acc
    simp [splitLinesAux]
  | cons c cs ih =>
    intro acc
    have hc : c ≠ '\n' := fun e => h (by rw [e]; exact List.mem_cons_self _ _)
    have hcs : '\n' ∉ cs := fun e => h (List.mem_cons_of_mem _ e)
    rw [List.cons_append, splitLinesAux, if_neg hc, ih hcs]
    simp

theorem splitLines_flatten (ls : List (List Char)) (h : ∀ l ∈ ls, '\n' ∉ l) :
    splitLines ((ls.map (fun l => l ++ ['\n'])).flatten) = ls := by
  induction ls with
  | nil => rfl
  | cons l ls ih =>
    have hl : '\n' ∉ l := h l (List.mem_cons_self _ _)
    have hls : ∀ x ∈ ls, '\n' ∉ x := fun x hx => h x (List.mem_cons_of_mem _ hx)
    unfold splitLines at ih ⊢
    rw [List.map_cons, List.flatten_cons, List.append_assoc, List.singleton_append,
      splitLinesAux_line l _ hl, ih hls]
    rfl

/-- The output as the sequence of its lines, each followed by a line break. -/
theorem formatHexDump_lines (data : List Byte) :
    (formatHexDump data).data =
      (((List.range (lineCount data.length)).map (dumpLine data)).map
        (fun l => l ++ ['\n'])).flatten := by
  rw [formatHexDump_data, List.map_map]
  congr 1
  apply List.map_congr_left
  intro k _
  rw [lineChars_eq]
  rfl

theorem splitLines_formatHexDump (data : List Byte) :
    splitLines (formatHexDump data).data
      = (List.range (lineCount data.length)).map (dumpLine data) := by
  rw [formatHexDump_lines, splitLines_flatten]
  intro l hl
  rw [List.mem_map] at hl
  obtain ⟨k, _, rfl⟩ := hl
  exact dumpLine_no_newline data k

theorem count_newline_lines (ls : List (List Char)) (h : ∀ l ∈ ls, '\n' ∉ l) :
    ((ls.map (fun l => l ++ ['\n'])).flatten).count '\n' = ls.length := by
  induction ls with
  | nil => rfl
  | cons l ls ih =>
    have hl : '\n' ∉ l := h l (List.mem_cons_self _ _)
    have hls : ∀ x ∈ ls, '\n' ∉ x := fun x hx => h x (List.mem_cons_of_mem _ hx)
    rw [List.map_cons, List.flatten_cons, List.count_append, List.count_append, ih hls,
      List.count_eq_zero_of_not_mem hl]
    simp
    omega

theorem dropWhile_bar (pre rest : List Char) (h : '|' ∉ pre) :
    (pre ++ '|' :: rest).dropWhile (fun c => c != '|') = '|' :: rest := by
  induction pre with
  | nil => simp [List.dropWhile]
  | cons c cs ih =>
    have hc : c ≠ '|' := fun e => h (by rw [e]; exact List.mem_cons_self _ _)
    have hcs : '|' ∉ cs := fun e => h (List.mem_cons_of_mem _ e)
    rw [List.cons_append, List.dropWhile_cons]
    simp only [bne_iff_ne, ne_eq, hc, not_false_eq_true, ↓reduceIte]
    exact ih hcs

theorem dumpLine_head_no_bar (data : List Byte) (k : Nat) :
    '|' ∉ (sprintfHex 4 (16 * k)).data ++ [':', ' ']
        ++ ((List.range 8).map (fun s => slotText data (16 * k + s))).flatten ++ [' ']
        ++ ((List.range 8).map (fun s => slotText data (16 * k + 8 + s))).flatten ++ [' '] :=
  fun h => dumpLine_head_mem (fun c => c ≠ '|') digitChar_ne_bar (by decide) (by decide)
    data k _ h rfl

theorem asciiColumn_dumpLine (data : List Byte) (k : Nat) :
    asciiColumn (dumpLine data k) = (chunk data k).map asciiOf := by
  unfold asciiColumn
  rw [dumpLine_split, dropWhile_bar _ _ (dumpLine_head_no_bar data k)]
  simp

theorem chunk_length (data : List Byte) (k : Nat) :
    (chunk data k).length = min 16 (data.length - 16 * k) := by
  unfold chunk
  rw [List.length_take, List.length_drop]

theorem asciiOf_printable (b : Byte) (h : 32 ≤ b.val ∧ b.val ≤ 126) :
    asciiOf b = Char.ofNat b.val := by
  unfold asciiOf
  rw [if_pos h]

/-! ## Claims about `formatHexDump` -/

/-- C2: the output of `formatHexDump` on `n` bytes holds exactly `ceil(n/16)`
line breaks (the least `L` with `n ≤ 16 * L`), it splits into that many lines,
and it is exactly these lines each followed by its line break; on the empty
input the output is the empty string. -/
theorem formatHexDump_line_count (data : List Byte) :
    (formatHexDump data).data.count '\n' = lineCount data.length
    ∧ (splitLines (formatHexDump data).data).length = lineCount data.length
    ∧ (formatHexDump data).data
        = ((splitLines (formatHexDump data).data).map (fun l => l ++ ['\n'])).flatten
    ∧ (data.length ≤ 16 * lineCount data.length
        ∧ 16 * lineCount data.length < data.length + 16)
    ∧ formatHexDump [] = "" := by
  have hnl : ∀ l ∈ (List.range (lineCount data.length)).map (dumpLine data), '\n' ∉ l := by
    intro l hl
    rw [List.mem_map] at hl
    obtain ⟨k, _, rfl⟩ := hl
    exact dumpLine_no_newline data k
  refine ⟨?_, ?_, ?_, ?_, rfl⟩
  · rw [formatHexDump_lines, count_newline_lines _ hnl]
    simp
  · rw [splitLines_formatHexDump]
    simp
  · rw [splitLines_formatHexDump]
    exact formatHexDump_lines data
  · unfold lineCount
    omega

/-- C3: every line of `formatHexDump data` is a bar-free part, the opening
bar, the ASCII column and the closing bar; the ASCII column of line `k` is the
chunk of that line mapped byte by byte to its own character when the byte is
in `[32, 126]` and to a dot otherwise, so it has as many characters as the
chunk has bytes; when every byte of the input is in `[32, 126]` the column is
the chunk itself, character for character. -/
theorem formatHexDump_ascii_column (data : List Byte) :
    (∀ l ∈ splitLines (formatHexDump data).data,
        ∃ pre, '|' ∉ pre ∧ l = pre ++ '|' :: (asciiColumn l ++ ['|']))
    ∧ (splitLines (formatHexDump data).data).map asciiColumn
        = (List.range (lineCount data.length)).map (fun k =>
            (chunk data k).map
              (fun b => if 32 ≤ b.val ∧ b.val ≤ 126 then Char.ofNat b.val else '.'))
    ∧ (splitLines (formatHexDump data).data).map (fun l => (asciiColumn l).length)
        = (List.range (lineCount data.length)).map (fun k => min 16 (data.length - 16 * k))
    ∧ ((∀ b ∈ data, 32 ≤ b.val ∧ b.val ≤ 126) →
        (splitLines (formatHexDump data).data).map asciiColumn
          = (List.range (lineCount data.length)).map (fun k =>
              (chunk data k).map (fun b => Char.ofNat b.val))) := by
  have h1 : (splitLines (formatHexDump data).data).map asciiColumn
      = (List.range (lineCount data.length)).map (fun k => (chunk data k).map asciiOf) := by
    rw [splitLines_formatHexDump, List.map_map]
    apply List.map_congr_left
    intro k _
    exact asciiColumn_dumpLine data k
  refine ⟨?_, h1, ?_, ?_⟩
  · intro l hl
    rw [splitLines_formatHexDump, List.mem_map] at hl
    obtain ⟨k, _, rfl⟩ := hl
    refine ⟨_, dumpLine_head_no_bar data k, ?_⟩
    rw [asciiColumn_dumpLine]
    exact dumpLine_split data k
  · rw [splitLines_formatHexDump, List.map_map]
    apply List.map_congr_left
    intro k _
    show (asciiColumn (dumpLine data k)).length = _
    rw [asciiColumn_dumpLine, List.length_map, chunk_length]
  · intro hp
    rw [h1]
    apply List.map_congr_left
    intro k _
    apply List.map_congr_left
    intro b hb
    exact asciiOf_printable b (hp b (List.mem_of_mem_drop (List.mem_of_mem_take hb)))

theorem formatHexDump_ascii_column_witness :
    (∀ b ∈ helloWorld, 32 ≤ b.val ∧ b.val ≤ 126)
    ∧ (splitLines (formatHexDump helloWorld).data).map asciiColumn
        = (List.range (lineCount helloWorld.length)).map (fun k =>
            (chunk helloWorld k).map (fun b => Char.ofNat b.val)) :=
  ⟨by decide, (formatHexDump_ascii_column helloWorld).2.2.2 (by decide)⟩

theorem slotText_length (data : List Byte) (j : Nat) : (slotText data j).length = 3 := by
  unfold slotText
  split <;> rfl

theorem slots_length (data : List Byte) (f : Nat → Nat) :
    ((List.range 8).map (fun s => slotText data (f s))).flatten.length = 24 := by
  have r : List.range 8 = [0, 1, 2, 3, 4, 5, 6, 7] := rfl
  rw [r]
  simp [slotText_length]

theorem sprintfHex_offset_length (k : Nat) (h : k < 4096) :
    (sprintfHex 4 (16 * k)).data.length = 4 := by
  rw [sprintfHex_four _ (by omega)]
  rfl

theorem dumpLine_eq_layoutLine (data : List Byte) (k : Nat) (h : k < 4096) :
    dumpLine data k = layoutLine data k := by
  unfold dumpLine layoutLine
  rw [sprintfHex_offset k h]

theorem lineCount_bound (n k : Nat) (hn : n ≤ 65535) (hk : k < lineCount n) : k < 4096 := by
  unfold lineCount at hk
  omega

/-- C6: for an input of at most 65535 bytes the output is, line after line,
the layout of the specification (offset `16k` as 4 lowercase zero-padded hex
digits, colon and space, 8 three-character slots, one extra space, 8 more
slots, space and bar, the ASCII characters, the closing bar) followed by a
line break; on every line the first bar is the character at index 56. -/
theorem formatHexDump_layout (data : List Byte) (h : data.length ≤ 65535) :
    (formatHexDump data).data
        = ((List.range (lineCount data.length)).map
            (fun k => layoutLine data k ++ ['\n'])).flatten
    ∧ splitLines (formatHexDump data).data
        = (List.range (lineCount data.length)).map (layoutLine data)
    ∧ ∀ k, k < lineCount data.length →
        (layoutLine data k)[56]? = some '|' ∧ '|' ∉ (layoutLine data k).take 56 := by
  have hmap : (List.range (lineCount data.length)).map (dumpLine data)
      = (List.range (lineCount data.length)).map (layoutLine data) := by
    apply List.map_congr_left
    intro k hk
    exact dumpLine_eq_layoutLine data k (lineCount_bound _ _ h (List.mem_range.mp hk))
  refine ⟨?_, ?_, ?_⟩
  · rw [formatHexDump_lines, hmap, List.map_map]
    rfl
  · rw [splitLines_formatHexDump, hmap]
  · intro k hk
    have hk4 : k < 4096 := lineCount_bound _ _ h hk
    have hlen : ((sprintfHex 4 (16 * k)).data ++ [':', ' ']
        ++ ((List.range 8).map (fun s => slotText data (16 * k + s))).flatten ++ [' ']
        ++ ((List.range 8).map (fun s => slotText data (16 * k + 8 + s))).flatten
        ++ [' ']).length = 56 := by
      simp only [List.length_append, sprintfHex_offset_length k hk4, slots_length,
        List.length_cons, List.length_nil]
    rw [← dumpLine_eq_layoutLine data k hk4, dumpLine_split]
    constructor
    · rw [List.getElem?_append_right (by omega), hlen]
      simp
    · rw [List.take_left' hlen]
      exact dumpLine_head_no_bar data k

theorem formatHexDump_layout_witness :
    ([72, 105] : List Byte).length ≤ 65535
    ∧ (formatHexDump [72, 105]).data
        = ((List.range (lineCount ([72, 105] : List Byte).length)).map
            (fun k => layoutLine [72, 105] k ++ ['\n'])).flatten :=
  ⟨by decide, (formatHexDump_layout [72, 105] (by decide)).1⟩

/-! ## Reading the dump back -/

theorem hexVal_hexDigit : ∀ d, d < 16 → hexVal (hexDigit d) = some d := by
  decide

theorem readSlot_slotText (data : List Byte) (j : Nat) :
    ∃ a b c, slotText data j = [a, b, c] ∧ readSlot a b c = data[j]? := by
  unfold slotText
  cases hj : data[j]? with
  | none => exact ⟨' ', ' ', ' ', rfl, by decide⟩
  | some x =>
    refine ⟨hexDigit (x.val / 16), hexDigit (x.val % 16), ' ', rfl, ?_⟩
    unfold readSlot
    rw [hexVal_hexDigit _ (by omega), hexVal_hexDigit _ (Nat.mod_lt _ (by decide))]
    simp only [↓reduceIte, Option.some.injEq]
    apply Fin.ext
    simp only [Fin.ofNat, Fin.val_mk]
    omega

theorem readSlots_slots (data : List Byte) (rest : List Char) :
    ∀ js : List Nat, readSlots js.length ((js.map (slotText data)).flatten ++ rest)
      = js.filterMap (fun j => data[j]?) := by
  intro js
  induction js with
  | nil =>
    simp only [List.length_nil, List.map_nil, List.flatten_nil, List.nil_append,
      List.filterMap_nil]
    cases rest <;> rfl
  | cons j js ih =>
    obtain ⟨a, b, c, hs, hr⟩ := readSlot_slotText data j
    rw [List.map_cons, List.flatten_cons, hs, List.length_cons]
    simp only [List.cons_append, List.nil_append]
    rw [readSlots, ih, hr, List.filterMap_cons]
    cases data[j]? <;> rfl

theorem filterMap_getElem_range (data : List Byte) :
    ∀ (n i : Nat), (List.range' i n).filterMap (fun j => data[j]?) = (data.drop i).take n := by
  intro n
  induction n with
  | zero =>
    intro i
    simp
  | succ n ih =>
    intro i
    rw [List.range'_succ, List.filterMap_cons, ih]
    by_cases h : i < data.length
    · rw [List.getElem?_eq_getElem h, List.drop_eq_getElem_cons h, List.take_succ_cons]
    · rw [List.getElem?_eq_none (by omega), List.drop_eq_nil_of_le (by omega),
        List.drop_eq_nil_of_le (by omega)]
      simp

theorem parseLine_layoutLine (data : List Byte) (k : Nat) :
    parseLine (layoutLine data k) = chunk data k := by
  have hA : (List.range 8).map (fun s => slotText data (16 * k + s))
      = (List.range' (16 * k) 8).map (slotText data) := by
    rw [List.range'_eq_map_range, List.map_map]
    rfl
  have hB : (List.range 8).map (fun s => slotText data (16 * k + 8 + s))
      = (List.range' (16 * k + 8) 8).map (slotText data) := by
    rw [List.range'_eq_map_range, List.map_map]
    rfl
  have h6 : (layoutLine data k).drop 6
      = ((List.range' (16 * k) 8).map (slotText data)).flatten
        ++ ([' '] ++ ((List.range 8).map (fun s => slotText data (16 * k + 8 + s))).flatten
          ++ [' ', '|'] ++ (chunk data k).map asciiOf ++ ['|']) := by
    unfold layoutLine lineTail offsetText
    rw [hA]
    simp
  have h31 : (layoutLine data k).drop 31
      = ((List.range' (16 * k + 8) 8).map (slotText data)).flatten
        ++ ([' ', '|'] ++ (chunk data k).map asciiOf ++ ['|']) := by
    have e : layoutLine data k
        = (offsetText (16 * k) ++ [':', ' ']
            ++ ((List.range 8).map (fun s => slotText data (16 * k + s))).flatten ++ [' '])
          ++ (((List.range' (16 * k + 8) 8).map (slotText data)).flatten
            ++ ([' ', '|'] ++ (chunk data k).map asciiOf ++ ['|'])) := by
      unfold layoutLine lineTail
      rw [hB]
      simp
    rw [e]
    apply List.drop_left'
    simp only [List.length_append, slots_length, List.length_cons, List.length_nil]
    rfl
  unfold parseLine
  rw [h6, h31]
  have l8a : (List.range' (16 * k) 8).length = 8 := List.length_range' _ _ _
  have l8b : (List.range' (16 * k + 8) 8).length = 8 := List.length_range' _ _ _
  have rA := readSlots_slots data
    ([' '] ++ ((List.range 8).map (fun s => slotText data (16 * k + 8 + s))).flatten
          ++ [' ', '|'] ++ (chunk data k).map asciiOf ++ ['|']) (List.range' (16 * k) 8)
  have rB := readSlots_slots data ([' ', '|'] ++ (chunk data k).map asciiOf ++ ['|'])
    (List.range' (16 * k + 8) 8)
  rw [l8a] at rA
  rw [l8b] at rB
  have hr : List.range' (16 * k) 8 ++ List.range' (16 * k + 8) 8 = List.range' (16 * k) 16 :=
    rfl
  rw [rA, rB, ← List.filterMap_append, hr, filterMap_getElem_range]
  rfl

theorem flatMap_chunk (data : List Byte) :
    ∀ m, (List.range m).flatMap (chunk data) = data.take (16 * m) := by
  intro m
  induction m with
  | zero => simp
  | succ m ih =>
    rw [List.range_succ, List.flatMap_append, ih]
    simp only [List.flatMap_cons, List.flatMap_nil, List.append_nil]
    unfold chunk
    rw [Nat.mul_succ, List.take_add]

/-- C1: for an input of at most 65535 bytes, reading the byte values printed
in the hex slots of the output lines of `formatHexDump`, line after line,
gives back the input. -/
theorem formatHexDump_round_trip (data : List Byte) (h : data.length ≤ 65535) :
    parseHexDump (formatHexDump data).data = data := by
  unfold parseHexDump
  rw [splitLines_formatHexDump]
  have e : ((List.range (lineCount data.length)).map (dumpLine data)).flatMap parseLine
      = (List.range (lineCount data.length)).flatMap (chunk data) := by
    rw [List.flatMap_map]
    apply List.flatMap_congr
    intro k hk
    show parseLine (dumpLine data k) = chunk data k
    rw [dumpLine_eq_layoutLine data k (lineCount_bound _ _ h (List.mem_range.mp hk))]
    exact parseLine_layoutLine data k
  rw [e, flatMap_chunk]
  apply List.take_of_length_le
  unfold lineCount
  omega

theorem formatHexDump_round_trip_witness :
    ([0, 255, 10, 124, 32, 65] : List Byte).length ≤ 65535
    ∧ parseHexDump (formatHexDump [0, 255, 10, 124, 32, 65]).data = [0, 255, 10, 124, 32, 65] :=
  ⟨by decide, formatHexDump_round_trip [0, 255, 10, 124, 32, 65] (by decide)⟩

/-! ## The two worked examples -/

theorem helloWorld_output :
    formatHexDump helloWorld
      = "0000: 48 65 6c 6c 6f 20 57 6f  72 6c 64                 |Hello World|\n" := by
  apply String.ext
  rw [formatHexDump_data]
  decide

theorem docExample_output :
    formatHexDump docExample
      = "0000: 48 65 6c 6c 6f 20 57 6f  72 6c 64 0a 54 65 73 74  |Hello World.Test|\n" ++
        "0010: 20 64 61 74 61                                    | data|\n" := by
  apply String.ext
  rw [formatHexDump_data]
  decide

/-- C4, as stated, fails: the dump of "Hello World" does not contain all three
of the offset, the hex bytes separated by single spaces and the ASCII column,
because the loop puts an extra space after the 8th byte. -/
theorem helloWorld_single_spaced_absent :
    ¬ ("0000:".data <:+: (formatHexDump helloWorld).data
      ∧ "48 65 6c 6c 6f 20 57 6f 72 6c 64".data <:+: (formatHexDump helloWorld).data
      ∧ "|Hello World|".data <:+: (formatHexDump helloWorld).data) := by
  rw [helloWorld_output]
  decide

/-- C4, amended: the dump of "Hello World" contains the offset `0000:`, the
hex bytes with two spaces between the 8th and the 9th byte, and the ASCII
column `|Hello World|`. -/
theorem helloWorld_dump_contains :
    "0000:".data <:+: (formatHexDump helloWorld).data
    ∧ "48 65 6c 6c 6f 20 57 6f  72 6c 64".data <:+: (formatHexDump helloWorld).data
    ∧ "|Hello World|".data <:+: (formatHexDump helloWorld).data := by
  rw [helloWorld_output]
  decide

/-- C5: at the example of its own doc comment (main.go 180-182) the code does
not return the two lines printed there; it returns them with an extra space
after the 8th hex byte of the first line and with 36 spaces, not 35, between
the last hex byte and the bar on the second line. -/
theorem docExample_dump :
    formatHexDump docExample
        = "0000: 48 65 6c 6c 6f 20 57 6f  72 6c 64 0a 54 65 73 74  |Hello World.Test|\n" ++
          "0010: 20 64 61 74 61" ++ String.mk (List.replicate 36 ' ') ++ "| data|\n"
    ∧ formatHexDump docExample ≠ docExampleText := by
  rw [docExample_output]
  decide

/-! ## Wrap-around arithmetic -/

theorem wrapInt_of_fits (sz : IntSize) (x : Int) (h1 : intMin sz ≤ x) (h2 : x ≤ intMax sz) :
    wrapInt sz x = x := by
  cases sz <;> simp only [wrapInt, intMin, intMax, IntSize.bits] at * <;> omega

theorem wrapInt_add_wrapInt (sz : IntSize) (x y : Int) :
    wrapInt sz (wrapInt sz x + y) = wrapInt sz (x + y) := by
  cases sz <;> simp only [wrapInt, IntSize.bits] <;> omega

theorem wrapInt_idem (sz : IntSize) (x : Int) : wrapInt sz (wrapInt sz x) = wrapInt sz x := by
  cases sz <;> simp only [wrapInt, IntSize.bits] <;> omega

theorem intMin_neg (sz : IntSize) : intMin sz ≤ 0 := by
  cases sz <;> simp only [intMin, IntSize.bits] <;> omega

theorem intMax_pos (sz : IntSize) : 1 ≤ intMax sz := by
  cases sz <;> simp only [intMax, IntSize.bits] <;> omega

/-! ## The sender map -/

theorem find_set_self (m : SenderStats) (k : String) (v : senderInfo) :
    (m.set k v).find k = some v := by
  induction m with
  | nil => simp [SenderStats.set, SenderStats.find]
  | cons e rest ih =>
    obtain ⟨k1, w⟩ := e
    by_cases h : k1 = k
    · simp [SenderStats.set, SenderStats.find, h]
    · simp [SenderStats.set, SenderStats.find, h, ih]

theorem find_set_ne (m : SenderStats) (k b : String) (v : senderInfo) (hb : b ≠ k) :
    (m.set k v).find b = m.find b := by
  induction m with
  | nil => simp [SenderStats.set, SenderStats.find, Ne.symm hb]
  | cons e rest ih =>
    obtain ⟨k1, w⟩ := e
    by_cases h : k1 = k
    · have h1 : k1 ≠ b := fun e => hb (by rw [← e, h])
      simp [SenderStats.set, SenderStats.find, h, Ne.symm hb]
    · by_cases h2 : k1 = b
      · subst h2
        simp [SenderStats.set, SenderStats.find, hb]
      · simp [SenderStats.set, SenderStats.find, h, h2, ih]

theorem find_modify_self (m : SenderStats) (k : String) (f : senderInfo → senderInfo) :
    (m.modify k f).find k = (m.find k).map f := by
  induction m with
  | nil => rfl
  | cons e rest ih =>
    obtain ⟨k1, w⟩ := e
    by_cases h : k1 = k
    · simp [SenderStats.modify, SenderStats.find, h]
    · simp [SenderStats.modify, SenderStats.find, h, ih]

theorem find_modify_ne (m : SenderStats) (k b : String) (f : senderInfo → senderInfo)
    (hb : b ≠ k) : (m.modify k f).find b = m.find b := by
  induction m with
  | nil => rfl
  | cons e rest ih =>
    obtain ⟨k1, w⟩ := e
    by_cases h : k1 = k
    · simp [SenderStats.modify, SenderStats.find, h, Ne.symm hb]
    · by_cases h2 : k1 = b
      · subst h2
        simp [SenderStats.modify, SenderStats.find, hb]
      · simp [SenderStats.modify, SenderStats.find, h, h2, ih]

/-- The entry of the packet's sender after the update. -/
theorem find_update_self (sz : IntSize) (m : SenderStats) (pkt : packetData) (t1 t2 : Nat) :
    (updateSenderStats sz m pkt t1 t2).find pkt.addr.ip
      = some (recorded sz (m.find pkt.addr.ip) pkt t1 t2) := by
  unfold updateSenderStats
  simp only [find_modify_self]
  cases h : m.find pkt.addr.ip with
  | none => simp [h, find_set_self, recorded]
  | some s => simp [h, recorded]

/-- The entries of all other senders after the update. -/
theorem find_update_ne (sz : IntSize) (m : SenderStats) (pkt : packetData) (t1 t2 : Nat)
    (b : String) (hb : b ≠ pkt.addr.ip) :
    (updateSenderStats sz m pkt t1 t2).find b = m.find b := by
  unfold updateSenderStats
  simp only [find_modify_ne _ _ _ _ hb]
  split
  · exact find_set_ne _ _ _ _ hb
  · rfl

theorem runLoop_cons (sz : IntSize) (st : LoopState) (ev : PacketEvent)
    (evs : List PacketEvent) :
    runLoop sz st (ev :: evs) = runLoop sz (packetCase sz st ev) evs := rfl

theorem find_packetCase (sz : IntSize) (st : LoopState) (ev : PacketEvent) (a : String) :
    (packetCase sz st ev).senderStats.find a
      = if ev.pkt.addr.ip = a then
          some (recorded sz (st.senderStats.find a) ev.pkt ev.tFirst ev.tLast)
        else st.senderStats.find a := by
  by_cases h : ev.pkt.addr.ip = a
  · rw [if_pos h, ← h]
    exact find_update_self _ _ _ _ _
  · rw [if_neg h]
    exact find_update_ne _ _ _ _ _ _ (Ne.symm h)

theorem recorded_packetCount (sz : IntSize) (old : Option senderInfo) (pkt : packetData)
    (t1 t2 : Nat) :
    (recorded sz old pkt t1 t2).packetCount
      = wrapInt sz ((old.map (fun s => s.packetCount)).getD 0 + 1) := by
  cases old <;> rfl

theorem recorded_totalBytes (sz : IntSize) (old : Option senderInfo) (pkt : packetData)
    (t1 t2 : Nat) :
    (recorded sz old pkt t1 t2).totalBytes
      = wrapInt sz ((old.map (fun s => s.totalBytes)).getD 0 + pkt.length) := by
  cases old <;> rfl

/-- The counters of sender `a` after a run depend on the packets of `a` only:
they are the number and the total length of those packets, added to the
counters of `a` before the run and wrapped. -/
theorem runLoop_find_filter (sz : IntSize) (a : String) :
    ∀ (evs : List PacketEvent) (st : LoopState),
      ((runLoop sz st evs).senderStats.find a).map (fun s => (s.packetCount, s.totalBytes))
        = if evs.any (fun ev => decide (ev.pkt.addr.ip = a)) then
            some
              (wrapInt sz (((st.senderStats.find a).map (fun s => s.packetCount)).getD 0
                + ((evs.filter (fun ev => decide (ev.pkt.addr.ip = a))).length : Int)),
               wrapInt sz (((st.senderStats.find a).map (fun s => s.totalBytes)).getD 0
                + ((evs.filter (fun ev => decide (ev.pkt.addr.ip = a))).map
                    (fun ev => ev.pkt.length)).sum))
          else (st.senderStats.find a).map (fun s => (s.packetCount, s.totalBytes)) := by
  intro evs
  induction evs with
  | nil =>
    intro st
    rfl
  | cons ev evs ih =>
    intro st
    rw [runLoop_cons, ih, find_packetCase]
    by_cases h : ev.pkt.addr.ip = a
    · have hany : (ev :: evs).any (fun ev => decide (ev.pkt.addr.ip = a)) = true := by
        simp [h]
      have hfil : (ev :: evs).filter (fun ev => decide (ev.pkt.addr.ip = a))
          = ev :: evs.filter (fun ev => decide (ev.pkt.addr.ip = a)) := by
        simp [List.filter_cons, h]
      rw [if_pos h, if_pos hany, hfil]
      simp only [Option.map_some', Option.getD_some, recorded_packetCount,
        recorded_totalBytes, wrapInt_add_wrapInt, List.length_cons, List.map_cons,
        List.sum_cons, Nat.cast_add, Nat.cast_one]
      by_cases h2 : evs.any (fun ev => decide (ev.pkt.addr.ip = a)) = true
      · rw [if_pos h2]
        simp only [Option.some.injEq, Prod.mk.injEq]
        constructor
        · congr 1
          omega
        · congr 1
          omega
      · have h3 : evs.filter (fun ev => decide (ev.pkt.addr.ip = a)) = [] := by
          rw [List.filter_eq_nil_iff]
          intro x hx hd
          exact h2 (List.any_eq_true.mpr ⟨x, hx, hd⟩)
        rw [if_neg h2, h3]
        simp
    · have hany : (ev :: evs).any (fun ev => decide (ev.pkt.addr.ip = a))
          = evs.any (fun ev => decide (ev.pkt.addr.ip = a)) := by
        simp [h]
      have hfil : (ev :: evs).filter (fun ev => decide (ev.pkt.addr.ip = a))
          = evs.filter (fun ev => decide (ev.pkt.addr.ip = a)) := by
        simp [List.filter_cons, h]
      rw [if_neg h, hany, hfil]

theorem runLoop_packetCount (sz : IntSize) :
    ∀ (evs : List PacketEvent) (st : LoopState), wrapInt sz st.packetCount = st.packetCount →
      (runLoop sz st evs).packetCount = wrapInt sz (st.packetCount + evs.length) := by
  intro evs
  induction evs with
  | nil =>
    intro st h
    simp only [List.length_nil, Nat.cast_zero, Int.add_zero, h]
    rfl
  | cons ev evs ih =>
    intro st _
    rw [runLoop_cons, ih _ (wrapInt_idem sz _)]
    simp only [packetCase, wrapInt_add_wrapInt, List.length_cons, Nat.cast_add, Nat.cast_one]
    congr 1
    omega

/-! ## The update as one map operation -/

theorem set_of_find_none (m : SenderStats) (k : String) (v : senderInfo)
    (h : m.find k = none) : m.set k v = m ++ [(k, v)] := by
  induction m with
  | nil => rfl
  | cons e rest ih =>
    obtain ⟨k1, w⟩ := e
    by_cases hk : k1 = k
    · simp [SenderStats.find, hk] at h
    · simp only [SenderStats.find, hk, ↓reduceIte] at h
      simp [SenderStats.set, hk, ih h]

theorem modify_append_new (m : SenderStats) (k : String) (v : senderInfo)
    (f : senderInfo → senderInfo) (h : m.find k = none) :
    (m ++ [(k, v)]).modify k f = m ++ [(k, f v)] := by
  induction m with
  | nil => simp [SenderStats.modify]
  | cons e rest ih =>
    obtain ⟨k1, w⟩ := e
    by_cases hk : k1 = k
    · simp [SenderStats.find, hk] at h
    · simp only [SenderStats.find, hk, ↓reduceIte] at h
      simp [SenderStats.modify, hk, ih h]

theorem modify_modify (m : SenderStats) (k : String) (f g : senderInfo → senderInfo) :
    (m.modify k f).modify k g = m.modify k (fun s => g (f s)) := by
  induction m with
  | nil => rfl
  | cons e rest ih =>
    obtain ⟨k1, w⟩ := e
    by_cases hk : k1 = k
    · simp [SenderStats.modify, hk]
    · simp [SenderStats.modify, hk, ih]

/-- The update for a sender not yet in the map adds one entry at the end. -/
theorem update_of_find_none (sz : IntSize) (m : SenderStats) (pkt : packetData)
    (t1 t2 : Nat) (h : m.find pkt.addr.ip = none) :
    updateSenderStats sz m pkt t1 t2 = m ++ [(pkt.addr.ip, recorded sz none pkt t1 t2)] := by
  unfold updateSenderStats
  simp only [h, Option.isNone_none, ↓reduceIte]
  rw [set_of_find_none _ _ _ h, modify_append_new _ _ _ _ h, modify_append_new _ _ _ _ h,
    modify_append_new _ _ _ _ h]
  rfl

/-- The update for a sender already in the map rewrites its entry in place. -/
theorem update_of_find_some (sz : IntSize) (m : SenderStats) (pkt : packetData)
    (t1 t2 : Nat) (s : senderInfo) (h : m.find pkt.addr.ip = some s) :
    updateSenderStats sz m pkt t1 t2
      = m.modify pkt.addr.ip (fun s => recorded sz (some s) pkt t1 t2) := by
  unfold updateSenderStats
  simp only [h, Option.isNone_some, Bool.false_eq_true, ↓reduceIte]
  rw [modify_modify, modify_modify]
  rfl

theorem mem_modify (m : SenderStats) (k : String) (f : senderInfo → senderInfo)
    (e : String × senderInfo) (he : e ∈ m.modify k f) :
    e ∈ m ∨ ∃ w, (k, w) ∈ m ∧ e = (k, f w) := by
  induction m with
  | nil => simp [SenderStats.modify] at he
  | cons x rest ih =>
    obtain ⟨k1, w⟩ := x
    by_cases hk : k1 = k
    · subst hk
      simp only [SenderStats.modify, ↓reduceIte, List.mem_cons] at he
      rcases he with h | h
      · exact Or.inr ⟨w, List.mem_cons_self _ _, h⟩
      · exact Or.inl (List.mem_cons_of_mem _ h)
    · simp only [SenderStats.modify, hk, ↓reduceIte, List.mem_cons] at he
      rcases he with h | h
      · exact Or.inl (by rw [h]; exact List.mem_cons_self _ _)
      · rcases ih h with h1 | ⟨w1, hw, e1⟩
        · exact Or.inl (List.mem_cons_of_mem _ h1)
        · exact Or.inr ⟨w1, List.mem_cons_of_mem _ hw, e1⟩

theorem keys_modify (m : SenderStats) (k : String) (f : senderInfo → senderInfo) :
    (m.modify k f).map Prod.fst = m.map Prod.fst := by
  induction m with
  | nil => rfl
  | cons x rest ih =>
    obtain ⟨k1, w⟩ := x
    by_cases hk : k1 = k
    · simp [SenderStats.modify, hk]
    · simp [SenderStats.modify, hk, ih]

theorem not_mem_keys_of_find_none (m : SenderStats) (k : String) (h : m.find k = none) :
    k ∉ m.map Prod.fst := by
  induction m with
  | nil => simp
  | cons x rest ih =>
    obtain ⟨k1, w⟩ := x
    by_cases hk : k1 = k
    · simp [SenderStats.find, hk] at h
    · simp only [SenderStats.find, hk, ↓reduceIte] at h
      simp only [List.map_cons, List.mem_cons, not_or]
      exact ⟨fun e => hk e.symm, ih h⟩

theorem sum_modify (g : senderInfo → Int) (m : SenderStats) (k : String)
    (f : senderInfo → senderInfo) (w : senderInfo) (h : m.find k = some w) :
    ((m.modify k f).map (fun e => g e.2)).sum
      = (m.map (fun e => g e.2)).sum + (g (f w) - g w) := by
  induction m with
  | nil => simp [SenderStats.find] at h
  | cons x rest ih =>
    obtain ⟨k1, w1⟩ := x
    by_cases hk : k1 = k
    · simp only [SenderStats.find, hk, ↓reduceIte, Option.some.injEq] at h
      subst h
      simp only [SenderStats.modify, hk, ↓reduceIte, List.map_cons, List.sum_cons]
      omega
    · simp only [SenderStats.find, hk, ↓reduceIte] at h
      simp only [SenderStats.modify, hk, ↓reduceIte, List.map_cons, List.sum_cons, ih h]
      omega

theorem find_some_mem (m : SenderStats) (k : String) (s : senderInfo)
    (h : m.find k = some s) : (k, s) ∈ m := by
  induction m with
  | nil => simp [SenderStats.find] at h
  | cons x rest ih =>
    obtain ⟨k1, w1⟩ := x
    by_cases hk : k1 = k
    · simp only [SenderStats.find, hk, ↓reduceIte, Option.some.injEq] at h
      rw [hk, h]
      exact List.mem_cons_self _ _
    · simp only [SenderStats.find, hk, ↓reduceIte] at h
      exact List.mem_cons_of_mem _ (ih h)

theorem field_le_sum (g : senderInfo → Int) (m : SenderStats) (hm : ∀ e ∈ m, 0 ≤ g e.2)
    (e : String × senderInfo) (he : e ∈ m) : g e.2 ≤ (m.map (fun e => g e.2)).sum := by
  apply List.single_le_sum
  · intro x hx
    rw [List.mem_map] at hx
    obtain ⟨y, hy, rfl⟩ := hx
    exact hm y hy
  · exact List.mem_map.mpr ⟨e, he, rfl⟩

theorem field_sum_nonneg (g : senderInfo → Int) (m : SenderStats)
    (hm : ∀ e ∈ m, 0 ≤ g e.2) : 0 ≤ (m.map (fun e => g e.2)).sum := by
  apply List.sum_nonneg
  intro x hx
  rw [List.mem_map] at hx
  obtain ⟨y, hy, rfl⟩ := hx
  exact hm y hy

/-- The effect of one update on the sum of a field over all entries. -/
theorem sum_update (sz : IntSize) (g : senderInfo → Int) (m : SenderStats)
    (pkt : packetData) (t1 t2 : Nat) :
    ((updateSenderStats sz m pkt t1 t2).map (fun e => g e.2)).sum
      = (m.map (fun e => g e.2)).sum
        + (g (recorded sz (m.find pkt.addr.ip) pkt t1 t2)
          - ((m.find pkt.addr.ip).map g).getD 0) := by
  cases h : m.find pkt.addr.ip with
  | none =>
    rw [update_of_find_none sz m pkt t1 t2 h]
    simp
  | some s =>
    rw [update_of_find_some sz m pkt t1 t2 s h, sum_modify g m _ _ s h]
    simp

theorem keys_nodup_update (sz : IntSize) (m : SenderStats) (pkt : packetData) (t1 t2 : Nat)
    (h : (m.map Prod.fst).Nodup) :
    ((updateSenderStats sz m pkt t1 t2).map Prod.fst).Nodup := by
  cases hf : m.find pkt.addr.ip with
  | none =>
    rw [update_of_find_none sz m pkt t1 t2 hf, List.map_append]
    have hk := not_mem_keys_of_find_none m _ hf
    rw [List.nodup_append]
    refine ⟨h, by simp, ?_⟩
    intro a ha hb
    simp only [List.map_cons, List.map_nil, List.mem_singleton] at hb
    exact hk (hb ▸ ha)
  | some s =>
    rw [update_of_find_some sz m pkt t1 t2 s hf, keys_modify]
    exact h

theorem runLoop_keys_nodup (sz : IntSize) :
    ∀ (evs : List PacketEvent) (st : LoopState), (st.senderStats.map Prod.fst).Nodup →
      ((runLoop sz st evs).senderStats.map Prod.fst).Nodup := by
  intro evs
  induction evs with
  | nil =>
    intro st h
    exact h
  | cons ev evs ih =>
    intro st h
    rw [runLoop_cons]
    exact ih _ (keys_nodup_update sz _ _ _ _ h)

theorem update_entries (sz : IntSize) (Q : String × senderInfo → Prop) (m : SenderStats)
    (pkt : packetData) (t1 t2 : Nat) (hm : ∀ e ∈ m, Q e)
    (hnew : Q (pkt.addr.ip, recorded sz none pkt t1 t2))
    (hold : ∀ s, (pkt.addr.ip, s) ∈ m → Q (pkt.addr.ip, recorded sz (some s) pkt t1 t2)) :
    ∀ e ∈ updateSenderStats sz m pkt t1 t2, Q e := by
  intro e he
  cases hf : m.find pkt.addr.ip with
  | none =>
    rw [update_of_find_none sz m pkt t1 t2 hf, List.mem_append, List.mem_singleton] at he
    rcases he with h | h
    · exact hm e h
    · rw [h]
      exact hnew
  | some s =>
    rw [update_of_find_some sz m pkt t1 t2 s hf] at he
    rcases mem_modify _ _ _ _ he with h | ⟨w, hw, h⟩
    · exact hm e h
    · rw [h]
      exact hold w hw

/-- One update, seen through an `int` field `g` that the update increases by
`d`: while the sum of the field over the map stays within `intMax`, no entry
wraps, every entry keeps the lower bound `lo`, and the sum grows by `d`. -/
theorem update_field (sz : IntSize) (g : senderInfo → Int) (d lo : Int) (m : SenderStats)
    (pkt : packetData) (t1 t2 : Nat)
    (hrec : ∀ old, g (recorded sz old pkt t1 t2) = wrapInt sz ((old.map g).getD 0 + d))
    (hlo : 0 ≤ lo) (hd : lo ≤ d) (hm : ∀ e ∈ m, lo ≤ g e.2)
    (hb : (m.map (fun e => g e.2)).sum + d ≤ intMax sz) :
    (∀ e ∈ updateSenderStats sz m pkt t1 t2, lo ≤ g e.2)
    ∧ ((updateSenderStats sz m pkt t1 t2).map (fun e => g e.2)).sum
        = (m.map (fun e => g e.2)).sum + d := by
  have hm0 : ∀ e ∈ m, 0 ≤ g e.2 := fun e he => Int.le_trans hlo (hm e he)
  have hsum0 := field_sum_nonneg g m hm0
  have hmin := intMin_neg sz
  have hnew : g (recorded sz none pkt t1 t2) = d := by
    rw [hrec none]
    simp only [Option.map_none', Option.getD_none, Int.zero_add]
    apply wrapInt_of_fits <;> omega
  have hold : ∀ s, (pkt.addr.ip, s) ∈ m → g (recorded sz (some s) pkt t1 t2) = g s + d := by
    intro s hs
    have h1 := field_le_sum g m hm0 _ hs
    have h2 := hm0 _ hs
    rw [hrec (some s)]
    simp only [Option.map_some', Option.getD_some]
    simp only at h1 h2
    apply wrapInt_of_fits <;> omega
  constructor
  · apply update_entries sz (fun e => lo ≤ g e.2) m pkt t1 t2 hm
    · show lo ≤ g (recorded sz none pkt t1 t2)
      rw [hnew]
      exact hd
    · intro s hs
      show lo ≤ g (recorded sz (some s) pkt t1 t2)
      have h2 : lo ≤ g s := hm _ hs
      rw [hold s hs]
      omega
  · rw [sum_update]
    cases hf : m.find pkt.addr.ip with
    | none =>
      rw [hnew]
      simp
    | some s =>
      rw [hold s (find_some_mem m _ s hf)]
      simp

/-- A run, seen through an `int` field `g` that each packet `ev` increases by
`d ev`: while the final sum stays within `intMax`, every entry keeps the lower
bound `lo` and the sum of the field grows by the sum of the increments. -/
theorem runLoop_field (sz : IntSize) (g : senderInfo → Int) (d : PacketEvent → Int)
    (lo : Int) (hlo : 0 ≤ lo)
    (hrec : ∀ (ev : PacketEvent) old,
      g (recorded sz old ev.pkt ev.tFirst ev.tLast) = wrapInt sz ((old.map g).getD 0 + d ev)) :
    ∀ (evs : List PacketEvent) (st : LoopState), (∀ ev ∈ evs, lo ≤ d ev) →
      (∀ e ∈ st.senderStats, lo ≤ g e.2) →
      (st.senderStats.map (fun e => g e.2)).sum + (evs.map d).sum ≤ intMax sz →
      (∀ e ∈ (runLoop sz st evs).senderStats, lo ≤ g e.2)
      ∧ ((runLoop sz st evs).senderStats.map (fun e => g e.2)).sum
          = (st.senderStats.map (fun e => g e.2)).sum + (evs.map d).sum := by
  intro evs
  induction evs with
  | nil =>
    intro st _ hst _
    exact ⟨hst, by simp [runLoop]⟩
  | cons ev evs ih =>
    intro st hd hst hb
    have hrest : 0 ≤ (evs.map d).sum := by
      apply List.sum_nonneg
      intro x hx
      rw [List.mem_map] at hx
      obtain ⟨y, hy, rfl⟩ := hx
      exact Int.le_trans hlo (hd y (List.mem_cons_of_mem _ hy))
    rw [List.map_cons, List.sum_cons] at hb
    obtain ⟨h1, h2⟩ := update_field sz g (d ev) lo st.senderStats ev.pkt ev.tFirst ev.tLast
      (hrec ev) hlo (hd ev (List.mem_cons_self _ _)) hst (by omega)
    have hstep : (packetCase sz st ev).senderStats
        = updateSenderStats sz st.senderStats ev.pkt ev.tFirst ev.tLast := rfl
    obtain ⟨h3, h4⟩ := ih (packetCase sz st ev)
      (fun x hx => hd x (List.mem_cons_of_mem _ hx)) (by rw [hstep]; exact h1)
      (by rw [hstep, h2]; omega)
    rw [runLoop_cons]
    refine ⟨h3, ?_⟩
    rw [h4, hstep, h2, List.map_cons, List.sum_cons]
    omega

theorem runLoop_entries (sz : IntSize) (Q : String × senderInfo → Prop) :
    ∀ (evs : List PacketEvent) (st : LoopState), (∀ e ∈ st.senderStats, Q e) →
      (∀ ev ∈ evs, Q (ev.pkt.addr.ip, recorded sz none ev.pkt ev.tFirst ev.tLast)
        ∧ ∀ s, Q (ev.pkt.addr.ip, s) →
            Q (ev.pkt.addr.ip, recorded sz (some s) ev.pkt ev.tFirst ev.tLast)) →
      ∀ e ∈ (runLoop sz st evs).senderStats, Q e := by
  intro evs
  induction evs with
  | nil =>
    intro st hst _
    exact hst
  | cons ev evs ih =>
    intro st hst hev
    rw [runLoop_cons]
    apply ih
    · exact update_entries sz Q _ _ _ _ hst (hev ev (List.mem_cons_self _ _)).1
        (fun s hs => (hev ev (List.mem_cons_self _ _)).2 s (hst _ hs))
    · exact fun x hx => hev x (List.mem_cons_of_mem _ hx)

theorem sum_map_one (evs : List PacketEvent) :
    (evs.map (fun _ => (1 : Int))).sum = evs.length := by
  induction evs with
  | nil => rfl
  | cons ev evs ih =>
    rw [List.map_cons, List.sum_cons, ih, List.length_cons]
    omega

/-! ## Runs of one repeated datagram -/

theorem replicate_run_find (sz : IntSize) (ev : PacketEvent) (n : Nat) (hn : 0 < n) :
    ((runLoop sz LoopState.init (List.replicate n ev)).senderStats.find ev.pkt.addr.ip).map
        (fun s => (s.packetCount, s.totalBytes))
      = some (wrapInt sz n, wrapInt sz (n * ev.pkt.length)) := by
  have hfil : (List.replicate n ev).filter (fun x => decide (x.pkt.addr.ip = ev.pkt.addr.ip))
      = List.replicate n ev := by
    rw [List.filter_eq_self]
    intro x hx
    rw [List.eq_of_mem_replicate hx]
    simp
  have hany : (List.replicate n ev).any (fun x => decide (x.pkt.addr.ip = ev.pkt.addr.ip))
      = true := by
    rw [List.any_eq_true]
    exact ⟨ev, List.mem_replicate.mpr ⟨by omega, rfl⟩, by simp⟩
  rw [runLoop_find_filter, if_pos hany, hfil, List.map_replicate, List.sum_replicate,
    List.length_replicate]
  simp [LoopState.init, SenderStats.find]

theorem replicate_run_from_single (sz : IntSize) (ev : PacketEvent) :
    ∀ (n : Nat) (st : LoopState), (∃ s, st.senderStats = [(ev.pkt.addr.ip, s)]) →
      ∃ s, (runLoop sz st (List.replicate n ev)).senderStats = [(ev.pkt.addr.ip, s)] := by
  intro n
  induction n with
  | zero =>
    intro st h
    exact h
  | succ n ih =>
    intro st h
    obtain ⟨s, hs⟩ := h
    rw [List.replicate_succ, runLoop_cons]
    apply ih
    have hf : st.senderStats.find ev.pkt.addr.ip = some s := by
      rw [hs]
      simp [SenderStats.find]
    refine ⟨recorded sz (some s) ev.pkt ev.tFirst ev.tLast, ?_⟩
    show updateSenderStats sz st.senderStats ev.pkt ev.tFirst ev.tLast = _
    rw [update_of_find_some sz _ _ _ _ s hf, hs]
    simp [SenderStats.modify]

theorem replicate_run_single (sz : IntSize) (ev : PacketEvent) (n : Nat) (hn : 0 < n) :
    ∃ s, (runLoop sz LoopState.init (List.replicate n ev)).senderStats
          = [(ev.pkt.addr.ip, s)]
      ∧ s.packetCount = wrapInt sz n
      ∧ s.totalBytes = wrapInt sz (n * ev.pkt.length) := by
  obtain ⟨k, rfl⟩ : ∃ k, n = k + 1 := ⟨n - 1, by omega⟩
  have h1 : ∃ s, (runLoop sz LoopState.init (List.replicate (k + 1) ev)).senderStats
      = [(ev.pkt.addr.ip, s)] := by
    rw [List.replicate_succ, runLoop_cons]
    apply replicate_run_from_single
    refine ⟨recorded sz none ev.pkt ev.tFirst ev.tLast, ?_⟩
    show updateSenderStats sz [] ev.pkt ev.tFirst ev.tLast = _
    rw [update_of_find_none sz [] _ _ _ rfl]
    rfl
  obtain ⟨s, hs⟩ := h1
  have h2 := replicate_run_find sz ev (k + 1) hn
  rw [hs] at h2
  simp only [SenderStats.find, ↓reduceIte, Option.map_some', Option.some.injEq,
    Prod.mk.injEq] at h2
  exact ⟨s, hs, h2.1, h2.2⟩

theorem floodEvent_length : floodEvent.pkt.length = 65507 := by
  simp only [floodEvent, receivedPacket, List.length_replicate, Nat.cast_ofNat]

/-- On a 32-bit build, after 32785 datagrams of 65507 bytes the map has one
entry, whose `totalBytes` has wrapped to a negative value. -/
theorem floodPackets_run :
    ∃ s, (runLoop .w32 LoopState.init floodPackets).senderStats = [("192.0.2.1", s)]
      ∧ s.packetCount = 32785 ∧ s.totalBytes = -2147320301 := by
  obtain ⟨s, hs, hc, hb⟩ := replicate_run_single .w32 floodEvent 32785 (by decide)
  refine ⟨s, hs, ?_, ?_⟩
  · rw [hc]
    decide
  · rw [hb, floodEvent_length]
    decide

/-- On a 32-bit build, after `2^31` datagrams the map has one entry, whose
`packetCount` has wrapped to the least `int`. -/
theorem longFlood_run :
    ∃ s, (runLoop .w32 LoopState.init longFlood).senderStats = [("192.0.2.1", s)]
      ∧ s.packetCount = -2147483648 := by
  obtain ⟨s, hs, hc, _⟩ := replicate_run_single .w32 floodEvent 2147483648 (by decide)
  refine ⟨s, hs, ?_⟩
  rw [hc]
  decide

theorem floodPackets_sum : (floodPackets.map (fun ev => ev.pkt.length)).sum = 2147646995 := by
  unfold floodPackets
  rw [List.map_replicate, List.sum_replicate, floodEvent_length]
  decide

/-! ## Claims about the sender statistics -/

/-- C7, as stated, fails: on a 32-bit build, after 32785 datagrams of 65507
bytes from one new sender, the entry of that sender does not have `totalBytes`
equal to the sum of the lengths, because the `int` has wrapped. -/
theorem flood_total_wraps :
    LoopState.init.senderStats.find "192.0.2.1" = none
    ∧ floodPackets ≠ []
    ∧ (∀ ev ∈ floodPackets, ev.pkt.addr.ip = "192.0.2.1")
    ∧ ¬ ∃ info, (runLoop .w32 LoopState.init floodPackets).senderStats.find "192.0.2.1"
            = some info
          ∧ info.packetCount = floodPackets.length
          ∧ info.totalBytes = (floodPackets.map (fun ev => ev.pkt.length)).sum := by
  refine ⟨rfl, ?_, ?_, ?_⟩
  · intro h
    have hl := congrArg List.length h
    rw [floodPackets, List.length_replicate] at hl
    exact absurd hl (by decide)
  · intro ev hev
    rw [floodPackets] at hev
    rw [List.eq_of_mem_replicate hev]
    rfl
  · rintro ⟨info, hf, _, hb⟩
    obtain ⟨s, hs, _, hsb⟩ := floodPackets_run
    rw [hs] at hf
    simp only [SenderStats.find, ↓reduceIte, Option.some.injEq] at hf
    rw [← hf, hsb, floodPackets_sum] at hb
    exact absurd hb (by decide)

/-- C7, amended: from a state whose map has no entry for IP `a`, after any
non-empty sequence of packets that all come from `a`, the entry of `a` exists,
its `packetCount` is the number of packets and its `totalBytes` the sum of
their lengths, both wrapped to the `int` of the build; they are the number
and the sum themselves whenever these lie within the range of `int`. -/
theorem same_sender_aggregation (sz : IntSize) (st : LoopState) (a : String)
    (evs : List PacketEvent) (h0 : st.senderStats.find a = none) (hne : evs ≠ [])
    (hall : ∀ ev ∈ evs, ev.pkt.addr.ip = a) :
    ∃ info, (runLoop sz st evs).senderStats.find a = some info
      ∧ info.packetCount = wrapInt sz evs.length
      ∧ info.totalBytes = wrapInt sz (evs.map (fun ev => ev.pkt.length)).sum
      ∧ ((evs.length : Int) ≤ intMax sz → info.packetCount = evs.length)
      ∧ (intMin sz ≤ (evs.map (fun ev => ev.pkt.length)).sum →
          (evs.map (fun ev => ev.pkt.length)).sum ≤ intMax sz →
          info.totalBytes = (evs.map (fun ev => ev.pkt.length)).sum) := by
  have hfil : evs.filter (fun ev => decide (ev.pkt.addr.ip = a)) = evs := by
    rw [List.filter_eq_self]
    intro x hx
    simp [hall x hx]
  have hany : evs.any (fun ev => decide (ev.pkt.addr.ip = a)) = true := by
    obtain ⟨x, hx⟩ := List.exists_mem_of_ne_nil evs hne
    rw [List.any_eq_true]
    exact ⟨x, hx, by simp [hall x hx]⟩
  have h := runLoop_find_filter sz a evs st
  rw [if_pos hany, hfil, h0] at h
  simp only [Option.map_none', Option.getD_none, Int.zero_add] at h
  cases hf : (runLoop sz st evs).senderStats.find a with
  | none =>
    rw [hf] at h
    exact absurd h (by simp)
  | some info =>
    rw [hf] at h
    simp only [Option.map_some', Option.some.injEq, Prod.mk.injEq] at h
    refine ⟨info, rfl, h.1, h.2, ?_, ?_⟩
    · intro hN
      rw [h.1]
      exact wrapInt_of_fits sz _ (Int.le_trans (intMin_neg sz) (Int.ofNat_nonneg _)) hN
    · intro hlo hhi
      rw [h.2]
      exact wrapInt_of_fits sz _ hlo hhi

theorem same_sender_aggregation_witness :
    LoopState.init.senderStats.find "127.0.0.1" = none
    ∧ tenPackets ≠ []
    ∧ (∀ ev ∈ tenPackets, ev.pkt.addr.ip = "127.0.0.1")
    ∧ ∃ info, (runLoop .w32 LoopState.init tenPackets).senderStats.find "127.0.0.1"
          = some info
        ∧ info.packetCount = tenPackets.length
        ∧ info.totalBytes = (tenPackets.map (fun ev => ev.pkt.length)).sum := by
  refine ⟨rfl, by decide, by decide, ?_⟩
  obtain ⟨info, hf, _, _, hc, hb⟩ :=
    same_sender_aggregation .w32 LoopState.init "127.0.0.1" tenPackets rfl (by decide)
      (by decide)
  exact ⟨info, hf, hc (by decide), hb (by decide) (by decide)⟩

/-- C8: on either build, the update for a packet from IP `a` leaves the entry
of every other IP `b` exactly as it was, removes no entry, and leaves an entry
for `a`; over a whole run from the initial state, the entry of an IP exists
exactly when a packet came from it, and its `packetCount` and `totalBytes` are
the number and the total length of the packets from that IP alone, as `int`s
of the build. -/
theorem other_senders_unchanged (sz : IntSize) (m : SenderStats) (pkt : packetData)
    (t1 t2 : Nat) (b : String) (hb : b ≠ pkt.addr.ip) :
    (updateSenderStats sz m pkt t1 t2).find b = m.find b
    ∧ (∀ k, (m.find k).isSome → ((updateSenderStats sz m pkt t1 t2).find k).isSome)
    ∧ ((updateSenderStats sz m pkt t1 t2).find pkt.addr.ip).isSome
    ∧ ∀ (evs : List PacketEvent) (a : String),
        ((runLoop sz LoopState.init evs).senderStats.find a).map
            (fun s => (s.packetCount, s.totalBytes))
          = if evs.any (fun ev => decide (ev.pkt.addr.ip = a)) then
              some
                (wrapInt sz ((evs.filter (fun ev => decide (ev.pkt.addr.ip = a))).length : Int),
                 wrapInt sz ((evs.filter (fun ev => decide (ev.pkt.addr.ip = a))).map
                    (fun ev => ev.pkt.length)).sum)
            else none := by
  refine ⟨find_update_ne sz m pkt t1 t2 b hb, ?_, ?_, ?_⟩
  · intro k hk
    by_cases h : k = pkt.addr.ip
    · rw [h, find_update_self]
      rfl
    · rw [find_update_ne sz m pkt t1 t2 k h]
      exact hk
  · rw [find_update_self]
    rfl
  · intro evs a
    rw [runLoop_find_filter]
    simp [LoopState.init, SenderStats.find]

theorem other_senders_unchanged_witness :
    "10.0.0.2" ≠ (receivedPacket [0x21] { ip := "10.0.0.1", port := 5002 }).addr.ip
    ∧ (updateSenderStats .w64 (runLoop .w64 LoopState.init mixedPackets).senderStats
          (receivedPacket [0x21] { ip := "10.0.0.1", port := 5002 }) 7 8).find "10.0.0.2"
        = (runLoop .w64 LoopState.init mixedPackets).senderStats.find "10.0.0.2" :=
  ⟨by decide,
    (other_senders_unchanged .w64 (runLoop .w64 LoopState.init mixedPackets).senderStats
      (receivedPacket [0x21] { ip := "10.0.0.1", port := 5002 }) 7 8 "10.0.0.2"
      (by decide)).1⟩

/-- C9, as stated, fails: on a 32-bit build, 32785 datagrams of 65507 bytes
(all of non-negative length) leave an entry with negative `totalBytes`, and
`2^31` datagrams leave an entry with `packetCount < 1`, for which the guard of
`printSenderSummary` fails and no average line is printed. -/
theorem flood_entry_wraps :
    (∀ ev ∈ floodPackets, 0 ≤ ev.pkt.length)
    ∧ (∃ e ∈ (runLoop .w32 LoopState.init floodPackets).senderStats, e.2.totalBytes < 0)
    ∧ (∃ e ∈ (runLoop .w32 LoopState.init longFlood).senderStats,
        e.2.packetCount < 1 ∧ avgPacketSize .w32 e.2 = none) := by
  refine ⟨?_, ?_, ?_⟩
  · intro ev hev
    rw [floodPackets] at hev
    rw [List.eq_of_mem_replicate hev, floodEvent_length]
    decide
  · obtain ⟨s, hs, _, hb⟩ := floodPackets_run
    refine ⟨("192.0.2.1", s), by rw [hs]; exact List.mem_singleton.mpr rfl, ?_⟩
    show s.totalBytes < 0
    rw [hb]
    decide
  · obtain ⟨s, hs, hc⟩ := longFlood_run
    refine ⟨("192.0.2.1", s), by rw [hs]; exact List.mem_singleton.mpr rfl, ?_, ?_⟩
    · show s.packetCount < 1
      rw [hc]
      decide
    · show avgPacketSize .w32 s = none
      unfold avgPacketSize
      rw [hc]
      exact if_neg (by decide)

/-- C9, amended: every entry of the sender map in a state reached from the
initial state has its `ip` field equal to its key; while the number of packets
processed is within the range of `int` it has `packetCount ≥ 1`, so the guard
of `printSenderSummary` holds, the divisor is not zero and the average line is
printed with the Go quotient; while the packets have non-negative lengths
whose sum is within the range of `int` it has `totalBytes ≥ 0`. -/
theorem senderStats_entries_counted (sz : IntSize) (evs : List PacketEvent)
    (e : String × senderInfo) (he : e ∈ (runLoop sz LoopState.init evs).senderStats) :
    e.2.ip = e.1
    ∧ ((evs.length : Int) ≤ intMax sz →
        1 ≤ e.2.packetCount ∧ e.2.packetCount ≠ 0
        ∧ avgPacketSize sz e.2
            = some (some (wrapInt sz (Int.tdiv e.2.totalBytes e.2.packetCount))))
    ∧ ((∀ ev ∈ evs, 0 ≤ ev.pkt.length) →
        (evs.map (fun ev => ev.pkt.length)).sum ≤ intMax sz → 0 ≤ e.2.totalBytes) := by
  refine ⟨?_, ?_, ?_⟩
  · refine runLoop_entries sz (fun e => e.2.ip = e.1) evs LoopState.init
      (fun x hx => absurd hx (List.not_mem_nil _)) ?_ e he
    intro ev _
    exact ⟨rfl, fun s hs => hs⟩
  · intro hN
    have h1 : 1 ≤ e.2.packetCount := by
      refine (runLoop_field sz (fun s => s.packetCount) (fun _ => 1) 1 (by decide)
        (fun ev old => recorded_packetCount sz old ev.pkt ev.tFirst ev.tLast) evs
        LoopState.init (fun _ _ => Int.le_refl 1)
        (fun x hx => absurd hx (List.not_mem_nil _)) ?_).1 e he
      rw [sum_map_one]
      simpa [LoopState.init] using hN
    refine ⟨h1, by omega, ?_⟩
    unfold avgPacketSize goDiv
    rw [if_pos (by omega), if_neg (by omega)]
  · intro hlen hB
    refine (runLoop_field sz (fun s => s.totalBytes) (fun ev => ev.pkt.length) 0
      (Int.le_refl 0) (fun ev old => recorded_totalBytes sz old ev.pkt ev.tFirst ev.tLast)
      evs LoopState.init hlen (fun x hx => absurd hx (List.not_mem_nil _)) ?_).1 e he
    simpa [LoopState.init] using hB

theorem senderStats_entries_counted_witness :
    ("10.0.0.2", secondSender) ∈ (runLoop .w32 LoopState.init mixedPackets).senderStats
    ∧ (mixedPackets.length : Int) ≤ intMax .w32
    ∧ 1 ≤ secondSender.packetCount
    ∧ avgPacketSize .w32 secondSender
        = some (some
            (wrapInt .w32 (Int.tdiv secondSender.totalBytes secondSender.packetCount))) :=
  ⟨by decide, by decide,
    ((senderStats_entries_counted .w32 mixedPackets ("10.0.0.2", secondSender)
      (by decide)).2.1 (by decide)).1,
    ((senderStats_entries_counted .w32 mixedPackets ("10.0.0.2", secondSender)
      (by decide)).2.1 (by decide)).2.2⟩

/-- C10, as stated, fails: on a 32-bit build, after 32785 datagrams of 65507
bytes the sum of `totalBytes` over the map is not the sum of the lengths of
the packets processed, and after `2^31` datagrams the global `packetCount` is
not the number of packets processed. -/
theorem flood_counters_wrap :
    sumTotalBytes (runLoop .w32 LoopState.init floodPackets).senderStats
        ≠ (floodPackets.map (fun ev => ev.pkt.length)).sum
    ∧ (runLoop .w32 LoopState.init longFlood).packetCount ≠ (longFlood.length : Int) := by
  constructor
  · obtain ⟨s, hs, _, hb⟩ := floodPackets_run
    rw [hs, floodPackets_sum]
    simp only [sumTotalBytes, List.map_cons, List.map_nil, List.sum_cons, List.sum_nil,
      Int.add_zero, hb]
    decide
  · rw [runLoop_packetCount .w32 longFlood LoopState.init (by decide)]
    unfold longFlood
    rw [List.length_replicate]
    decide

/-- C10, amended: after any sequence of packets processed from the initial
state, the global `packetCount` is the number of packets processed wrapped to
the `int` of the build, and the keys of the map are pairwise distinct; while
the number of packets is within the range of `int`, the global `packetCount`
is that number and equals the sum of the `packetCount` fields over the map;
while the packets have non-negative lengths whose sum is within the range of
`int`, the sum of the `totalBytes` fields is the sum of the lengths. -/
theorem global_counter_agrees (sz : IntSize) (evs : List PacketEvent) :
    (runLoop sz LoopState.init evs).packetCount = wrapInt sz evs.length
    ∧ ((runLoop sz LoopState.init evs).senderStats.map Prod.fst).Nodup
    ∧ ((evs.length : Int) ≤ intMax sz →
        (runLoop sz LoopState.init evs).packetCount = evs.length
        ∧ sumPacketCount (runLoop sz LoopState.init evs).senderStats
            = (runLoop sz LoopState.init evs).packetCount)
    ∧ ((∀ ev ∈ evs, 0 ≤ ev.pkt.length) →
        (evs.map (fun ev => ev.pkt.length)).sum ≤ intMax sz →
        sumTotalBytes (runLoop sz LoopState.init evs).senderStats
          = (evs.map (fun ev => ev.pkt.length)).sum) := by
  have hc : (runLoop sz LoopState.init evs).packetCount = wrapInt sz evs.length := by
    have h0 : wrapInt sz LoopState.init.packetCount = LoopState.init.packetCount := by
      cases sz <;> decide
    rw [runLoop_packetCount sz evs LoopState.init h0]
    simp [LoopState.init]
  refine ⟨hc, runLoop_keys_nodup sz evs LoopState.init (by simp [LoopState.init]), ?_, ?_⟩
  · intro hN
    have hfit : (runLoop sz LoopState.init evs).packetCount = evs.length := by
      rw [hc]
      exact wrapInt_of_fits sz _ (Int.le_trans (intMin_neg sz) (Int.ofNat_nonneg _)) hN
    refine ⟨hfit, ?_⟩
    have h := (runLoop_field sz (fun s => s.packetCount) (fun _ => 1) 1 (by decide)
      (fun ev old => recorded_packetCount sz old ev.pkt ev.tFirst ev.tLast) evs
      LoopState.init (fun _ _ => Int.le_refl 1)
      (fun x hx => absurd hx (List.not_mem_nil _))
      (by rw [sum_map_one]; simpa [LoopState.init] using hN)).2
    rw [sum_map_one] at h
    rw [hfit]
    simpa [sumPacketCount, LoopState.init] using h
  · intro hlen hB
    have h := (runLoop_field sz (fun s => s.totalBytes) (fun ev => ev.pkt.length) 0
      (Int.le_refl 0) (fun ev old => recorded_totalBytes sz old ev.pkt ev.tFirst ev.tLast)
      evs LoopState.init hlen (fun x hx => absurd hx (List.not_mem_nil _))
      (by simpa [LoopState.init] using hB)).2
    simpa [sumTotalBytes, LoopState.init] using h

theorem global_counter_agrees_witness :
    (mixedPackets.length : Int) ≤ intMax .w32
    ∧ (runLoop .w32 LoopState.init mixedPackets).packetCount = mixedPackets.length
    ∧ sumPacketCount (runLoop .w32 LoopState.init mixedPackets).senderStats
        = (runLoop .w32 LoopState.init mixedPackets).packetCount :=
  ⟨by decide, ((global_counter_agrees .w32 mixedPackets).2.2.1 (by decide)).1,
    ((global_counter_agrees .w32 mixedPackets).2.2.1 (by decide)).2⟩
end UdpTest
